import Mathlib

/-!
Verification development for the repository's "async inference client +
response parser" core (src/parse.py, src/extract_thinker.py,
src/llm_inference.py).

Conventions of the shallow embedding:
* Python strings are modelled as `List Char` (with `String` wrappers where a
  source function takes a string argument).
* `json.loads` is modelled by `json_loads` below: a fuel-based
  recursive-descent parser for the JSON grammar accepted by Python's default
  decoder (objects, arrays, strings with escapes, numbers, true/false/null,
  and the nonstandard NaN/Infinity constants).  Numbers keep their integer
  part as `Int` plus the fractional digits and exponent verbatim; surrogate
  pairs in \uXXXX escapes are not combined (no claim exercises them).
* Fallible code returns `Option`; network behaviour is passed in as an
  explicit parameter (e.g. the S3 read behaviour of each poll attempt).
-/

namespace S2P

/-- characters referred to by name to keep literals simple -/
def btChar : Char := Char.ofNat 96    -- backtick
def dqChar : Char := Char.ofNat 34    -- double quote
def sqChar : Char := Char.ofNat 39    -- single quote
def lbrace : Char := Char.ofNat 123   -- left curly brace
def rbrace : Char := Char.ofNat 125   -- right curly brace
def bslash : Char := Char.ofNat 92    -- backslash
def nlChar : Char := Char.ofNat 10    -- newline

/-- whitespace accepted by Python's JSON decoder (space, tab, LF, CR) -/
def isJsonWs (c : Char) : Bool :=
  c = ' ' || c = '\t' || c = nlChar || c = '\x0d'

/-- whitespace matched by the regex class \s and by str.strip() for the ASCII
range (space, tab, LF, CR, VT, FF) -/
def isPyWs (c : Char) : Bool :=
  c = ' ' || c = '\t' || c = nlChar || c = '\x0d' || c = '\x0b' || c = '\x0c'

/-- drop a run of characters satisfying p from the right end -/
def dropEndWhile (p : Char → Bool) (l : List Char) : List Char :=
  (l.reverse.dropWhile p).reverse

/-- Python str.strip(set): remove characters of the set from both ends -/
def pyStripChar (c : Char) (l : List Char) : List Char :=
  dropEndWhile (fun x => x = c) (l.dropWhile (fun x => x = c))

/-- Python str.strip() restricted to ASCII whitespace -/
def pyStripWs (l : List Char) : List Char :=
  dropEndWhile isPyWs (l.dropWhile isPyWs)

/-- surrounding JSON whitespace removed from both ends, as done by the
decoder before and after the single top-level value -/
def stripJsonWs (l : List Char) : List Char :=
  dropEndWhile isJsonWs (l.dropWhile isJsonWs)

/-- values produced by json.loads -/
inductive JsonValue where
  | null
  | bool (b : Bool)
  | num (i : Int) (frac : List Char) (ex : Option Int)
  | str (s : String)
  | arr (elems : List JsonValue)
  | obj (members : List (String × JsonValue))
  | nan
  | inf (neg : Bool)

/-- dict insertion as performed while decoding an object: a repeated key
overwrites the stored value in place, a new key is appended -/
def insertKey (acc : List (String × JsonValue)) (k : String) (v : JsonValue) :
    List (String × JsonValue) :=
  if acc.any (fun p => p.1 = k) then
    acc.map (fun p => if p.1 = k then (k, v) else p)
  else acc ++ [(k, v)]

/-- dict .get with a default -/
def objGetD (m : List (String × JsonValue)) (k : String) (d : JsonValue) :
    JsonValue :=
  match m.find? (fun p => p.1 = k) with
  | some p => p.2
  | none => d

/-- consume an expected literal run of characters -/
def dropLit : List Char → List Char → Option (List Char)
  | [], cs => some cs
  | _ :: _, [] => none
  | l :: ls, c :: cs => if c = l then dropLit ls cs else none

/-- digits of a number token folded into a natural number -/
def digitsToNat (l : List Char) : Nat :=
  l.foldl (fun n c => n * 10 + (c.toNat - 48)) 0

/-- one hexadecimal digit -/
def hexVal (c : Char) : Option Nat :=
  if '0' ≤ c ∧ c ≤ '9' then some (c.toNat - 48)
  else if 'a' ≤ c ∧ c ≤ 'f' then some (c.toNat - 87)
  else if 'A' ≤ c ∧ c ≤ 'F' then some (c.toNat - 55)
  else none

/-- the body of a \uXXXX escape -/
def parseHex4 : List Char → Option (Char × List Char)
  | a :: b :: c :: d :: rest =>
    match hexVal a, hexVal b, hexVal c, hexVal d with
    | some x, some y, some z, some w =>
      some (Char.ofNat (((x * 16 + y) * 16 + z) * 16 + w), rest)
    | _, _, _, _ => none
  | _ => none

/-- payload of a number token: an infinity sign, or integer part plus
fraction digits plus exponent -/
def numValue : Bool ⊕ (Int × List Char × Option Int) → JsonValue
  | Sum.inl b => JsonValue.inf b
  | Sum.inr (i, fd, ex) => JsonValue.num i fd ex

/-- the optional leading minus of a number token -/
def numSign (cs : List Char) : Bool × List Char :=
  match cs with
  | c :: t => if c = '-' then (true, t) else (false, cs)
  | [] => (false, cs)

/-- the optional sign of an exponent -/
def expSign (r4 : List Char) : Bool × List Char :=
  match r4 with
  | d :: r5 =>
    if d = '-' then (true, r5) else if d = '+' then (false, r5) else (false, r4)
  | [] => (false, r4)

/-- the optional exponent of a number token -/
def parseExp (i : Int) (fd : List Char) (r3 : List Char) :
    Option ((Bool ⊕ (Int × List Char × Option Int)) × List Char) :=
  match r3 with
  | c :: r4 =>
    if c = 'e' || c = 'E' then
      let ed := (expSign r4).2.takeWhile Char.isDigit
      if ed.isEmpty then none
      else
        let ev : Int :=
          if (expSign r4).1 then -(digitsToNat ed : Int) else (digitsToNat ed : Int)
        some (Sum.inr (i, fd, some ev), (expSign r4).2.dropWhile Char.isDigit)
    else some (Sum.inr (i, fd, none), r3)
  | [] => some (Sum.inr (i, fd, none), r3)

/-- the optional fraction of a number token, then its exponent -/
def parseFrac (i : Int) (r1 : List Char) :
    Option ((Bool ⊕ (Int × List Char × Option Int)) × List Char) :=
  match r1 with
  | c :: r2 =>
    if c = '.' then
      let fd := r2.takeWhile Char.isDigit
      if fd.isEmpty then none else parseExp i fd (r2.dropWhile Char.isDigit)
    else parseExp i [] r1
  | [] => parseExp i [] r1

/-- a number token after its sign: the Infinity constant, or an integer
part without leading zeros followed by fraction and exponent -/
def parseNumCore (neg : Bool) (cs1 : List Char) :
    Option ((Bool ⊕ (Int × List Char × Option Int)) × List Char) :=
  match dropLit ['I', 'n', 'f', 'i', 'n', 'i', 't', 'y'] cs1 with
  | some r => if neg then some (Sum.inl true, r) else some (Sum.inl false, r)
  | none =>
    let ip := cs1.takeWhile Char.isDigit
    let r1 := cs1.dropWhile Char.isDigit
    if ip.isEmpty then none
    else if ip.length > 1 && ip.headD '0' = '0' then none
    else
      let i : Int := if neg then -(digitsToNat ip : Int) else (digitsToNat ip : Int)
      parseFrac i r1

/-- number token per the decoder's grammar: optional minus, integer part
without leading zeros, optional fraction, optional exponent; also the
constants Infinity / -Infinity reached through the sign -/
def parseNumber (cs : List Char) :
    Option ((Bool ⊕ (Int × List Char × Option Int)) × List Char) :=
  parseNumCore (numSign cs).1 (numSign cs).2

mutual

/-- a single JSON value starting at the head of the input (no leading
whitespace); fuel bounds the recursion depth -/
def parseValue : Nat → List Char → Option (JsonValue × List Char)
  | 0, _ => none
  | _ + 1, [] => none
  | fuel + 1, c :: rest =>
    if c = lbrace then
      match rest.dropWhile isJsonWs with
      | d :: r1 =>
        if d = rbrace then some (JsonValue.obj [], r1)
        else
          match parseMembers fuel (rest.dropWhile isJsonWs) [] with
          | some (ms, r) => some (JsonValue.obj ms, r)
          | none => none
      | [] => none
    else if c = '[' then
      match rest.dropWhile isJsonWs with
      | d :: r1 =>
        if d = ']' then some (JsonValue.arr [], r1)
        else
          match parseElems fuel (rest.dropWhile isJsonWs) [] with
          | some (es, r) => some (JsonValue.arr es, r)
          | none => none
      | [] => none
    else if c = dqChar then
      match parseStringBody fuel rest [] with
      | some (s, r) => some (JsonValue.str s, r)
      | none => none
    else if c = 't' then
      match dropLit ['r', 'u', 'e'] rest with
      | some r => some (JsonValue.bool true, r)
      | none => none
    else if c = 'f' then
      match dropLit ['a', 'l', 's', 'e'] rest with
      | some r => some (JsonValue.bool false, r)
      | none => none
    else if c = 'n' then
      match dropLit ['u', 'l', 'l'] rest with
      | some r => some (JsonValue.null, r)
      | none => none
    else if c = 'N' then
      match dropLit ['a', 'N'] rest with
      | some r => some (JsonValue.nan, r)
      | none => none
    else if c = 'I' || c = '-' || c.isDigit then
      match parseNumber (c :: rest) with
      | some (pl, r) => some (numValue pl, r)
      | none => none
    else none

/-- members of an object, positioned at a key (quote expected); returns the
accumulated member list -/
def parseMembers : Nat → List Char → List (String × JsonValue) →
    Option (List (String × JsonValue) × List Char)
  | 0, _, _ => none
  | _ + 1, [], _ => none
  | fuel + 1, c :: rest, acc =>
    if c = dqChar then
      match parseStringBody fuel rest [] with
      | none => none
      | some (k, r1) =>
        match r1.dropWhile isJsonWs with
        | d :: r2 =>
          if d = ':' then
            match parseValue fuel ((r2.dropWhile isJsonWs)) with
            | none => none
            | some (v, r3) =>
              let acc' := insertKey acc k v
              match r3.dropWhile isJsonWs with
              | e :: r4 =>
                if e = ',' then parseMembers fuel (r4.dropWhile isJsonWs) acc'
                else if e = rbrace then some (acc', r4)
                else none
              | [] => none
          else none
        | [] => none
    else none

/-- elements of an array, positioned at a value; returns the accumulated
element list -/
def parseElems : Nat → List Char → List JsonValue →
    Option (List JsonValue × List Char)
  | 0, _, _ => none
  | fuel + 1, cs, acc =>
    match parseValue fuel cs with
    | none => none
    | some (v, r1) =>
      match r1.dropWhile isJsonWs with
      | d :: r2 =>
        if d = ',' then parseElems fuel (r2.dropWhile isJsonWs) (acc ++ [v])
        else if d = ']' then some (acc ++ [v], r2)
        else none
      | [] => none

/-- the interior of a string literal, the opening quote already consumed -/
def parseStringBody : Nat → List Char → List Char → Option (String × List Char)
  | 0, _, _ => none
  | _ + 1, [], _ => none
  | fuel + 1, c :: rest, acc =>
    if c = dqChar then some (String.mk acc.reverse, rest)
    else if c = bslash then
      match rest with
      | [] => none
      | e :: r1 =>
        if e = dqChar then parseStringBody fuel r1 (dqChar :: acc)
        else if e = bslash then parseStringBody fuel r1 (bslash :: acc)
        else if e = '/' then parseStringBody fuel r1 ('/' :: acc)
        else if e = 'b' then parseStringBody fuel r1 ('\x08' :: acc)
        else if e = 'f' then parseStringBody fuel r1 ('\x0c' :: acc)
        else if e = 'n' then parseStringBody fuel r1 (nlChar :: acc)
        else if e = 'r' then parseStringBody fuel r1 ('\x0d' :: acc)
        else if e = 't' then parseStringBody fuel r1 ('\t' :: acc)
        else if e = 'u' then
          match parseHex4 r1 with
          | some (u, r2) => parseStringBody fuel r2 (u :: acc)
          | none => none
        else none
    else if c.toNat < 32 then none
    else parseStringBody fuel rest (c :: acc)

end

/-- json.loads on a character list: strip surrounding whitespace, parse one
value, and require that nothing but that value was present -/
def json_loads_list (cs : List Char) : Option JsonValue :=
  let t := stripJsonWs cs
  match parseValue (t.length + 1) t with
  | some (v, []) => some v
  | _ => none

/-- json.loads on a string -/
def json_loads (s : String) : Option JsonValue :=
  json_loads_list s.data

/-! Model of the two regex substitutions of src/parse.py.

The first removes every match of the MULTILINE pattern: at a line start,
three backticks, an optional literal json tag, then a greedy run of \s
(the run may swallow newlines, so matching resumes mid-line).  The second
removes every match of a greedy \s run followed by three backticks at a
line end or at the end of the string.  Both substitutions scan left to
right over the original text and replace with the empty string. -/

/-- three backticks at the head -/
def isTicks3 (l : List Char) : Bool :=
  match l with
  | a :: b :: c :: _ => a = btChar && b = btChar && c = btChar
  | _ => false

/-- the literal json tag at the head -/
def isJsonTag (l : List Char) : Bool :=
  match l with
  | a :: b :: c :: d :: _ => a = 'j' && b = 's' && c = 'o' && d = 'n'
  | _ => false

/-- whether a run of characters ends in a newline -/
def lastIsNl (l : List Char) : Bool :=
  match l.getLast? with
  | some c => c = nlChar
  | none => false

/-- remainder after the opening-fence match: the two remaining backticks,
the optional tag, and the greedy whitespace run are consumed (the first
backtick was the scrutinised head character) -/
def afterTicksRest (cs : List Char) : List Char :=
  let r1 := cs.drop 2
  let r2 := if isJsonTag r1 then r1.drop 4 else r1
  r2.dropWhile isPyWs

/-- whether the position after the opening-fence match is a line start:
true exactly when the consumed whitespace run ended in a newline -/
def afterTicksFlag (cs : List Char) : Bool :=
  let r1 := cs.drop 2
  let r2 := if isJsonTag r1 then r1.drop 4 else r1
  lastIsNl (r2.takeWhile isPyWs)

theorem length_dropWhile_le (p : Char → Bool) (l : List Char) :
    (l.dropWhile p).length ≤ l.length := by
  induction l with
  | nil => simp [List.dropWhile]
  | cons c cs ih =>
    by_cases h : p c
    · simp [List.dropWhile, h]; omega
    · simp [List.dropWhile, h]

/-- the first substitution of parse.py: remove the opening-fence pattern at
every line start, scanning left to right; the flag records whether the
current position is at a line start.  The fuel argument makes the recursion
structural: it is instantiated with the input length below, which suffices
because every step consumes at least one character, so the fuel-exhaustion
case (which leaves the remainder untouched) is never reached on a nonempty
remainder -/
def sub1F : Nat → List Char → Bool → List Char
  | _, [], _ => []
  | 0, cs, _ => cs
  | fuel + 1, c :: cs, atLS =>
    if atLS && isTicks3 (c :: cs) then
      sub1F fuel (afterTicksRest cs) (afterTicksFlag cs)
    else c :: sub1F fuel cs (c = nlChar)

/-- the first substitution on a whole text, scanning from a line start -/
def sub1 (cs : List Char) (atLS : Bool) : List Char :=
  sub1F cs.length cs atLS

/-- does the closing-fence pattern match at this position: a greedy \s run,
three backticks, then a line end or the end of the text -/
def ticksEndHere (l : List Char) : Bool :=
  let r := l.dropWhile isPyWs
  isTicks3 r &&
    (match (r.drop 3).head? with
     | none => true
     | some c => c = nlChar)

/-- remainder after a closing-fence match -/
def afterTicksEnd (l : List Char) : List Char :=
  (l.dropWhile isPyWs).drop 3

/-- the second substitution of parse.py: remove whitespace-plus-fence runs
that sit at a line end, scanning left to right; fuel as in sub1F -/
def sub2F : Nat → List Char → List Char
  | _, [] => []
  | 0, cs => cs
  | fuel + 1, c :: cs =>
    if ticksEndHere (c :: cs) then sub2F fuel (afterTicksEnd (c :: cs))
    else c :: sub2F fuel cs

/-- the second substitution on a whole text -/
def sub2 (cs : List Char) : List Char :=
  sub2F cs.length cs

/-- the preprocessed text of extract_json_from_response: both regex
substitutions, then strip of double quotes, then strip of single quotes -/
def ejfr_prep (s : String) : List Char :=
  pyStripChar sqChar (pyStripChar dqChar (sub2 (sub1 s.data true)))

/-- extract_json_from_response of src/parse.py: preprocess and attempt
json.loads, returning the Python None on a decode error -/
def extract_json_from_response (s : String) : Option JsonValue :=
  json_loads_list (ejfr_prep s)

/-- extract_json_from_response together with the count of print calls it
performs: the except branch prints one diagnostic line -/
def extract_json_from_response_io (s : String) : Option JsonValue × Nat :=
  match json_loads_list (ejfr_prep s) with
  | some v => (some v, 0)
  | none => (none, 1)

/-- Python str.find restricted to one character: index of the first
occurrence, if any (the source encodes absence as -1) -/
def pyFind (l : List Char) (c : Char) : Option Nat :=
  match l with
  | [] => none
  | x :: xs => if x = c then some 0 else (pyFind xs c).map (· + 1)

/-- Python str.rfind restricted to one character: index of the last
occurrence, if any -/
def pyRfind (l : List Char) (c : Char) : Option Nat :=
  match l with
  | [] => none
  | x :: xs =>
    match pyRfind xs c with
    | some i => some (i + 1)
    | none => if x = c then some 0 else none

/-- the error object built by DirectLlamaExtractor.extract_with_prompt when
its candidate fails to decode; the raw_response field holds the full
response text -/
def errorDict (s : String) : JsonValue :=
  JsonValue.obj [("error", JsonValue.str "Could not parse JSON"),
                 ("raw_response", JsonValue.str s)]

/-- the string handed to json.loads by extract_with_prompt, transcribed from
src/extract_thinker.py lines 344-353: json_start is find of the left brace
(-1 when absent), json_end is rfind of the right brace plus one, and the
slice between them is taken when json_start is not -1 and json_end exceeds
it; otherwise the whole stripped response -/
def et_candidate (cs : List Char) : List Char :=
  let js : Int := match pyFind cs lbrace with | some i => (i : Int) | none => -1
  let je : Int := (match pyRfind cs rbrace with | some j => (j : Int) | none => -1) + 1
  if js ≠ -1 ∧ je > js then (cs.drop js.toNat).take (je.toNat - js.toNat)
  else pyStripWs cs

/-- the response-parsing tail of DirectLlamaExtractor.extract_with_prompt in
src/extract_thinker.py: decode the candidate, and on a decode error return
the error object carrying the raw response -/
def extract_with_prompt_json (s : String) : JsonValue :=
  match json_loads_list (et_candidate s.data) with
  | some v => v
  | none => errorDict s

/-- Modelled from the spec wording of the candidate-selection step, for the
refinement statement of the brace-scanning claim: locate the first left
brace and the last right brace; when both exist and the first position
precedes the last, the inclusive substring between them is the candidate;
otherwise the whole trimmed text is -/
def response_parser_spec_candidate (cs : List Char) : List Char :=
  match pyFind cs lbrace, pyRfind cs rbrace with
  | some i, some j => if i < j then (cs.drop i).take (j + 1 - i) else pyStripWs cs
  | _, _ => pyStripWs cs

/-- the spec-side parser: JSON-parse the spec-selected candidate, with the
same failure value -/
def extract_with_prompt_spec (s : String) : JsonValue :=
  match json_loads_list (response_parser_spec_candidate s.data) with
  | some v => v
  | none => errorDict s

/-! Model of the inference client of src/llm_inference.py.  Network
behaviour is a parameter: the synchronous call either raises or yields a
response body, the asynchronous submission either raises or yields the
acknowledged output location, and each S3 poll attempt either yields the
object body, reports NoSuchKey, or raises some other client error. -/

/-- outcome of one s3 get_object attempt -/
inductive S3Read where
  | ok (body : String)
  | noSuchKey
  | err

/-- return value of wait_for_async_result plus the observable effort: the
number of get_object calls, of 5-second sleeps, and the elapsed time at
return (get_object itself is counted as instantaneous) -/
structure WaitOutcome where
  result : Option JsonValue
  polls : Nat
  sleeps : Nat
  elapsed : Nat

/-- the generated-text extraction shared by invoke_sync_endpoint and
wait_for_async_result: a nonempty list whose first element is a dict yields
that dict's generated_text entry (empty string default), a dict yields its
own entry; an empty list or a non-list non-dict hits the logged error path,
and a nonempty list with a non-dict head raises AttributeError, caught by
the surrounding handler — both produce None -/
def extract_generated_text (v : JsonValue) : Option JsonValue :=
  match v with
  | JsonValue.arr (JsonValue.obj m :: _) =>
    some (objGetD m "generated_text" (JsonValue.str ""))
  | JsonValue.arr _ => none
  | JsonValue.obj m => some (objGetD m "generated_text" (JsonValue.str ""))
  | _ => none

/-- behaviour of the synchronous endpoint call: an exception anywhere in the
invocation, or an HTTP-level success carrying a response body -/
inductive SvcResp where
  | exc
  | body (s : String)

/-- LLMInference.invoke_sync_endpoint: every exception path returns None;
on success the body is decoded and the generated text extracted -/
def invoke_sync_endpoint (resp : SvcResp) : Option JsonValue :=
  match resp with
  | SvcResp.exc => none
  | SvcResp.body s =>
    match json_loads s with
    | none => none
    | some v => extract_generated_text v

/-- behaviour of the asynchronous submission: an exception, or an
acknowledgement whose OutputLocation entry may be absent -/
inductive AsyncResp where
  | exc
  | ok (outputLocation : Option String)

/-- LLMInference.invoke_async_endpoint: exceptions give None, otherwise the
OutputLocation of the acknowledgement is returned as-is -/
def invoke_async_endpoint : AsyncResp → Option String
  | AsyncResp.exc => none
  | AsyncResp.ok r => r

/-- the polling loop of wait_for_async_result.  Each iteration runs while
the elapsed time is below the budget: a successful read decodes and
extracts like the synchronous path and returns at once (a decode error or
bad shape also returns at once, as None); NoSuchKey sleeps p seconds and
retries; any other client error returns None at once.  The read behaviour
is indexed by the attempt number.  The fuel argument only bounds the
recursion and is chosen large enough at the call site. -/
def waitLoop (read : Nat → S3Read) (p T : Nat) :
    Nat → Nat → Nat → Nat → WaitOutcome
  | 0, elapsed, polls, sleeps => ⟨none, polls, sleeps, elapsed⟩
  | fuel + 1, elapsed, polls, sleeps =>
    if elapsed < T then
      match read polls with
      | S3Read.ok body =>
        ⟨(match json_loads body with
          | some v => extract_generated_text v
          | none => none), polls + 1, sleeps, elapsed⟩
      | S3Read.noSuchKey => waitLoop read p T fuel (elapsed + p) (polls + 1) (sleeps + 1)
      | S3Read.err => ⟨none, polls + 1, sleeps, elapsed⟩
    else ⟨none, polls, sleeps, elapsed⟩

/-- the loop entered with zero elapsed time; the fuel T + 1 dominates the
iteration count because every retry advances elapsed time by p ≥ 1 -/
def wait_core (read : Nat → S3Read) (p T : Nat) : WaitOutcome :=
  waitLoop read p T (T + 1) 0 0 0

/-- the location prefix test of wait_for_async_result -/
def startsWithS3 (cs : List Char) : Bool :=
  match cs with
  | 's' :: '3' :: ':' :: '/' :: '/' :: _ => true
  | _ => false

/-- LLMInference.wait_for_async_result: a location that does not start with
the s3 scheme is rejected at once; a location whose remainder has no slash
makes the bucket/key unpacking raise, caught by the outer handler; otherwise
the polling loop runs with the fixed 5-second interval (the bucket and key
themselves are abstracted into the read behaviour) -/
def wait_for_async_result (read : Nat → S3Read) (output_location : String)
    (max_wait_time : Nat) : WaitOutcome :=
  if startsWithS3 output_location.data then
    if (output_location.data.drop 5).any (fun c => c = '/') then
      wait_core read 5 max_wait_time
    else ⟨none, 0, 0, 0⟩
  else ⟨none, 0, 0, 0⟩

/-- return value of infer plus the number of calls it made to each
collaborator -/
structure InferOutcome where
  result : Option JsonValue
  asyncCalls : Nat
  syncCalls : Nat
  waitCalls : Nat

/-- LLMInference.infer: with use_async, submit asynchronously; a truthy
output location (Python truthiness: non-empty) leads to the wait with the
300-second default budget, any falsy one falls back to exactly one
synchronous invocation; without use_async the synchronous path runs
directly -/
def infer (a : AsyncResp) (sr : SvcResp) (read : Nat → S3Read)
    (use_async : Bool) : InferOutcome :=
  if use_async then
    match invoke_async_endpoint a with
    | some loc =>
      if loc = "" then ⟨invoke_sync_endpoint sr, 1, 1, 0⟩
      else ⟨(wait_for_async_result read loc 300).result, 1, 0, 1⟩
    | none => ⟨invoke_sync_endpoint sr, 1, 1, 0⟩
  else ⟨invoke_sync_endpoint sr, 0, 1, 0⟩

/-! Helper lemmas about the polling loop, shared by several claims. -/

/-- when the object never appears, the loop ends with a None result at or
after the deadline, and either made no poll at all or made its last poll
strictly before the deadline -/
theorem waitLoop_never (read : Nat → S3Read) (p T : Nat)
    (hread : ∀ n, read n = S3Read.noSuchKey) :
    ∀ fuel elapsed polls sleeps, elapsed = polls * p →
      T ≤ elapsed + fuel * p →
      (waitLoop read p T fuel elapsed polls sleeps).result = none ∧
      T ≤ (waitLoop read p T fuel elapsed polls sleeps).elapsed ∧
      ((waitLoop read p T fuel elapsed polls sleeps).polls = polls ∨
        ((waitLoop read p T fuel elapsed polls sleeps).polls - 1) * p < T) := by
  intro fuel
  induction fuel with
  | zero =>
    intro elapsed polls sleeps hinv hcond
    refine ⟨rfl, ?_, Or.inl rfl⟩
    show T ≤ elapsed
    omega
  | succ fuel ih =>
    intro elapsed polls sleeps hinv hcond
    by_cases he : elapsed < T
    · have hstep : waitLoop read p T (fuel + 1) elapsed polls sleeps =
          waitLoop read p T fuel (elapsed + p) (polls + 1) (sleeps + 1) := by
        simp [waitLoop, he, hread polls]
      rw [hstep]
      have hinv' : elapsed + p = (polls + 1) * p := by
        rw [Nat.succ_mul, ← hinv]
      have hcond' : T ≤ elapsed + p + fuel * p := by
        rw [Nat.succ_mul] at hcond; omega
      obtain ⟨r1, r2, r3⟩ := ih (elapsed + p) (polls + 1) (sleeps + 1) hinv' hcond'
      refine ⟨r1, r2, ?_⟩
      rcases r3 with hl | hr
      · right
        rw [hl]
        simpa [← hinv] using he
      · right; exact hr
    · have hstep : waitLoop read p T (fuel + 1) elapsed polls sleeps =
          ⟨none, polls, sleeps, elapsed⟩ := by
        simp [waitLoop, he]
      rw [hstep]
      refine ⟨rfl, ?_, Or.inl rfl⟩
      show T ≤ elapsed
      omega

/-- when the first k attempts see NoSuchKey and attempt k raises a client
error that is not NoSuchKey, the loop returns None at once after exactly
k + 1 polls and k sleeps -/
theorem waitLoop_err (read : Nat → S3Read) (p T : Nat) :
    ∀ k fuel elapsed polls sleeps,
      (∀ j, j < k → read (polls + j) = S3Read.noSuchKey) →
      read (polls + k) = S3Read.err →
      elapsed + k * p < T → k < fuel →
      waitLoop read p T fuel elapsed polls sleeps =
        ⟨none, polls + k + 1, sleeps + k, elapsed + k * p⟩ := by
  intro k
  induction k with
  | zero =>
    intro fuel elapsed polls sleeps _ herr hT hfuel
    match fuel, hfuel with
    | fuel + 1, _ =>
      have he : elapsed < T := by omega
      have herr' : read polls = S3Read.err := by simpa using herr
      simp [waitLoop, he, herr']
  | succ k ih =>
    intro fuel elapsed polls sleeps hns herr hT hfuel
    match fuel, hfuel with
    | fuel + 1, _ =>
      have he : elapsed < T := by
        have : 0 ≤ (k + 1) * p := Nat.zero_le _
        omega
      have h0 : read polls = S3Read.noSuchKey := by
        have := hns 0 (by omega)
        simpa using this
      have hstep : waitLoop read p T (fuel + 1) elapsed polls sleeps =
          waitLoop read p T fuel (elapsed + p) (polls + 1) (sleeps + 1) := by
        simp [waitLoop, he, h0]
      rw [hstep]
      have hns' : ∀ j, j < k → read (polls + 1 + j) = S3Read.noSuchKey := by
        intro j hj
        have harg : polls + 1 + j = polls + (j + 1) := by omega
        rw [harg]
        exact hns (j + 1) (by omega)
      have herr' : read (polls + 1 + k) = S3Read.err := by
        have harg : polls + 1 + k = polls + (k + 1) := by omega
        rw [harg]; exact herr
      have hT' : elapsed + p + k * p < T := by
        rw [Nat.succ_mul] at hT; omega
      have := ih fuel (elapsed + p) (polls + 1) (sleeps + 1) hns' herr' hT' (by omega)
      rw [this]
      have e1 : polls + 1 + k + 1 = polls + (k + 1) + 1 := by omega
      have e2 : sleeps + 1 + k = sleeps + (k + 1) := by omega
      have e3 : elapsed + p + k * p = elapsed + (k + 1) * p := by
        rw [Nat.succ_mul]; omega
      rw [e1, e2, e3]

/-- when the first k attempts see NoSuchKey and attempt k reads the object,
the loop returns at once after exactly k + 1 polls and k sleeps, with the
decode-and-extract of the body as its result: an undecodable body or an
unusable decoded shape returns None through the same expression -/
theorem waitLoop_ok (read : Nat → S3Read) (p T : Nat) :
    ∀ k fuel elapsed polls sleeps (body : String),
      (∀ j, j < k → read (polls + j) = S3Read.noSuchKey) →
      read (polls + k) = S3Read.ok body →
      elapsed + k * p < T → k < fuel →
      waitLoop read p T fuel elapsed polls sleeps =
        ⟨(match json_loads body with
          | some v => extract_generated_text v
          | none => none), polls + k + 1, sleeps + k, elapsed + k * p⟩ := by
  intro k
  induction k with
  | zero =>
    intro fuel elapsed polls sleeps body _ hok hT hfuel
    match fuel, hfuel with
    | fuel + 1, _ =>
      have he : elapsed < T := by omega
      have hok' : read polls = S3Read.ok body := by simpa using hok
      simp [waitLoop, he, hok']
  | succ k ih =>
    intro fuel elapsed polls sleeps body hns hok hT hfuel
    match fuel, hfuel with
    | fuel + 1, _ =>
      have he : elapsed < T := by
        have : 0 ≤ (k + 1) * p := Nat.zero_le _
        omega
      have h0 : read polls = S3Read.noSuchKey := by
        have := hns 0 (by omega)
        simpa using this
      have hstep : waitLoop read p T (fuel + 1) elapsed polls sleeps =
          waitLoop read p T fuel (elapsed + p) (polls + 1) (sleeps + 1) := by
        simp [waitLoop, he, h0]
      rw [hstep]
      have hns' : ∀ j, j < k → read (polls + 1 + j) = S3Read.noSuchKey := by
        intro j hj
        have harg : polls + 1 + j = polls + (j + 1) := by omega
        rw [harg]
        exact hns (j + 1) (by omega)
      have hok' : read (polls + 1 + k) = S3Read.ok body := by
        have harg : polls + 1 + k = polls + (k + 1) := by omega
        rw [harg]; exact hok
      have hT' : elapsed + p + k * p < T := by
        rw [Nat.succ_mul] at hT; omega
      have := ih fuel (elapsed + p) (polls + 1) (sleeps + 1) body hns' hok' hT' (by omega)
      rw [this]
      have e1 : polls + 1 + k + 1 = polls + (k + 1) + 1 := by omega
      have e2 : sleeps + 1 + k = sleeps + (k + 1) := by omega
      have e3 : elapsed + p + k * p = elapsed + (k + 1) * p := by
        rw [Nat.succ_mul]; omega
      rw [e1, e2, e3]

/-! Lemmas about the index computations of the brace scan. -/

theorem pyFind_getElem (l : List Char) (c : Char) :
    ∀ i, pyFind l c = some i → l[i]? = some c := by
  induction l with
  | nil => intro i h; simp [pyFind] at h
  | cons x xs ih =>
    intro i h
    by_cases hx : x = c
    · simp only [pyFind, if_pos hx] at h
      cases h
      simpa using hx
    · simp only [pyFind, if_neg hx, Option.map_eq_some'] at h
      obtain ⟨a, ha, hi⟩ := h
      subst hi
      simpa using ih a ha

theorem pyRfind_getElem (l : List Char) (c : Char) :
    ∀ i, pyRfind l c = some i → l[i]? = some c := by
  induction l with
  | nil => intro i h; simp [pyRfind] at h
  | cons x xs ih =>
    intro i h
    simp only [pyRfind] at h
    cases hr : pyRfind xs c with
    | some a =>
      rw [hr] at h
      cases h
      simpa using ih a hr
    | none =>
      rw [hr] at h
      by_cases hx : x = c
      · rw [if_pos hx] at h
        cases h
        simpa using hx
      · rw [if_neg hx] at h
        cases h

/-- the candidate actually selected by extract_with_prompt agrees with the
candidate described by the specification wording -/
theorem et_candidate_eq_spec (cs : List Char) :
    et_candidate cs = response_parser_spec_candidate cs := by
  cases hf : pyFind cs lbrace with
  | none =>
    cases hr : pyRfind cs rbrace with
    | none => simp [et_candidate, response_parser_spec_candidate, hf, hr]
    | some j => simp [et_candidate, response_parser_spec_candidate, hf, hr]
  | some i =>
    cases hr : pyRfind cs rbrace with
    | none =>
      simp only [et_candidate, response_parser_spec_candidate, hf, hr]
      split_ifs with hcond
      · exfalso
        obtain ⟨h1, h2⟩ := hcond
        omega
      · rfl
    | some j =>
      have hi := pyFind_getElem cs lbrace i hf
      have hj := pyRfind_getElem cs rbrace j hr
      have hij : i ≠ j := by
        intro hEq
        rw [hEq, hj] at hi
        exact absurd hi (by decide)
      simp only [et_candidate, response_parser_spec_candidate, hf, hr]
      split_ifs with h1 h2 h2
      · have e1 : ((j : Int) + 1).toNat = j + 1 := by omega
        have e2 : ((i : Int)).toNat = i := by omega
        rw [e1, e2]
      · exfalso
        obtain ⟨h1a, h1b⟩ := h1
        omega
      · exfalso
        apply h1
        refine ⟨by omega, by omega⟩
      · rfl

/-! Lemmas for the fenced-block claim: the whitespace predicates, the two
substitutions on backtick-free text, and the shape of a successful object
parse. -/

theorem isJsonWs_isPyWs (c : Char) (h : isJsonWs c = true) : isPyWs c = true := by
  simp only [isJsonWs, Bool.or_eq_true, decide_eq_true_eq] at h
  rcases h with ((h | h) | h) | h <;> subst h <;> decide

/-- when the json-whitespace prefix ends at a left brace, the larger regex
whitespace class stops at the same place -/
theorem dropWhile_py_eq_json (l : List Char)
    (h : ∃ t, l.dropWhile isJsonWs = lbrace :: t) :
    l.dropWhile isPyWs = l.dropWhile isJsonWs := by
  induction l with
  | nil =>
    obtain ⟨t, ht⟩ := h
    simp at ht
  | cons x xs ih =>
    by_cases hx : isJsonWs x = true
    · rw [List.dropWhile_cons_of_pos hx] at h
      rw [List.dropWhile_cons_of_pos (isJsonWs_isPyWs x hx),
          List.dropWhile_cons_of_pos hx]
      exact ih h
    · rw [List.dropWhile_cons_of_neg hx] at h
      obtain ⟨t, ht⟩ := h
      injection ht with h1 h2
      subst h1
      rw [List.dropWhile_cons_of_neg hx,
          List.dropWhile_cons_of_neg (by decide : ¬ isPyWs lbrace = true)]

theorem dropWhile_append_ne_nil {p : Char → Bool} {a : List Char}
    (b : List Char) (h : a.dropWhile p ≠ []) :
    (a ++ b).dropWhile p = a.dropWhile p ++ b := by
  rw [List.dropWhile_append, if_neg (by simpa using h)]

theorem dropEndWhile_append_neg (p : Char → Bool) (l : List Char) (c : Char)
    (h : ¬ p c = true) : dropEndWhile p (l ++ [c]) = l ++ [c] := by
  unfold dropEndWhile
  rw [List.reverse_append, List.reverse_singleton, List.singleton_append,
      List.dropWhile_cons_of_neg h, List.reverse_cons, List.reverse_reverse]

theorem dropEndWhile_append_pos (p : Char → Bool) (l : List Char) (c : Char)
    (h : p c = true) : dropEndWhile p (l ++ [c]) = dropEndWhile p l := by
  unfold dropEndWhile
  rw [List.reverse_append, List.reverse_singleton, List.singleton_append,
      List.dropWhile_cons_of_pos h]

theorem dropEndWhile_prefix (p : Char → Bool) (l : List Char) :
    ∃ t, l = dropEndWhile p l ++ t := by
  refine ⟨(l.reverse.takeWhile p).reverse, ?_⟩
  have h : (l.reverse.takeWhile p ++ l.reverse.dropWhile p).reverse
      = l.reverse.reverse := by
    rw [List.takeWhile_append_dropWhile]
  rw [List.reverse_append, List.reverse_reverse] at h
  simpa [dropEndWhile] using h.symm

/-- the trailing run removed by dropEndWhile satisfies the predicate -/
theorem dropEndWhile_decomp (p : Char → Bool) (l : List Char) :
    ∃ t, l = dropEndWhile p l ++ t ∧ ∀ x ∈ t, p x = true := by
  refine ⟨(l.reverse.takeWhile p).reverse, ?_, ?_⟩
  · have h : (l.reverse.takeWhile p ++ l.reverse.dropWhile p).reverse
        = l.reverse.reverse := by
      rw [List.takeWhile_append_dropWhile]
    rw [List.reverse_append, List.reverse_reverse] at h
    simpa [dropEndWhile] using h.symm
  · intro x hx
    rw [List.mem_reverse] at hx
    exact List.mem_takeWhile_imp hx

/-- the line-start flag after scanning a run of characters -/
def flagAfter : List Char → Bool → Bool
  | [], flag => flag
  | c :: ls, _ => flagAfter ls (c = nlChar)

theorem flagAfter_append (a b : List Char) (flag : Bool) :
    flagAfter (a ++ b) flag = flagAfter b (flagAfter a flag) := by
  induction a generalizing flag with
  | nil => rfl
  | cons c ls ih => simp [flagAfter, ih]

theorem isTicks3_cons_false (c : Char) (t : List Char) (h : ¬ c = btChar) :
    isTicks3 (c :: t) = false := by
  match t with
  | [] => rfl
  | [_] => rfl
  | x :: y :: r => simp [isTicks3, h]

/-! Adjacency invariant of decoder-accepted text.  In text accepted by the
JSON decoder a backtick can only sit strictly inside a string literal,
whose raw characters contain no newline (unescaped control characters are
rejected), so a newline is never immediately followed by a backtick, a
backtick is never immediately followed by a newline, and an accepted
region neither starts nor ends with a backtick.  This is exactly what
keeps both substitutions of parse.py away from every backtick inside a
fenced JSON body. -/

/-- no adjacent newline-backtick pair, in either order -/
def pairsOk : List Char → Bool
  | x :: y :: rest =>
    (!((x = nlChar && y = btChar) || (x = btChar && y = nlChar))) &&
      pairsOk (y :: rest)
  | _ => true

/-- the head, if any, is not a backtick -/
def headNotBt : List Char → Bool
  | [] => true
  | c :: _ => !(c = btChar)

/-- the last character, if any, is not a backtick -/
def lastNotBt (l : List Char) : Bool :=
  headNotBt l.reverse

/-- the invariant carried by every decoder-accepted segment -/
def goodSeg (l : List Char) : Prop :=
  pairsOk l = true ∧ headNotBt l = true ∧ lastNotBt l = true

theorem pairsOk_tail (c : Char) (l : List Char)
    (h : pairsOk (c :: l) = true) : pairsOk l = true := by
  match l with
  | [] => rfl
  | y :: rest =>
    simp only [pairsOk, Bool.and_eq_true] at h
    exact h.2

theorem pairsOk_pair (x y : Char) (t : List Char)
    (h : pairsOk (x :: y :: t) = true) :
    ¬(x = nlChar ∧ y = btChar) ∧ ¬(x = btChar ∧ y = nlChar) := by
  simp only [pairsOk, Bool.and_eq_true] at h
  have h1 := h.1
  constructor <;> rintro ⟨hx, hy⟩ <;> subst hx <;> subst hy <;>
    exact absurd h1 (by decide)

theorem pairsOk_of_not_mem_bt (l : List Char) (h : btChar ∉ l) :
    pairsOk l = true := by
  match l with
  | [] => rfl
  | [x] => rfl
  | x :: y :: rest =>
    have hx : ¬ x = btChar := by
      intro he
      subst he
      exact h (List.mem_cons_self _ _)
    have hy : ¬ y = btChar := by
      intro he
      subst he
      exact h (List.mem_cons_of_mem _ (List.mem_cons_self _ _))
    simp only [pairsOk, Bool.and_eq_true]
    refine ⟨by simp [hx, hy], ?_⟩
    exact pairsOk_of_not_mem_bt (y :: rest) fun hm => h (List.mem_cons_of_mem _ hm)

theorem pairsOk_of_not_mem_nl (l : List Char) (h : nlChar ∉ l) :
    pairsOk l = true := by
  match l with
  | [] => rfl
  | [x] => rfl
  | x :: y :: rest =>
    have hx : ¬ x = nlChar := by
      intro he
      subst he
      exact h (List.mem_cons_self _ _)
    have hy : ¬ y = nlChar := by
      intro he
      subst he
      exact h (List.mem_cons_of_mem _ (List.mem_cons_self _ _))
    simp only [pairsOk, Bool.and_eq_true]
    refine ⟨by simp [hx, hy], ?_⟩
    exact pairsOk_of_not_mem_nl (y :: rest) fun hm => h (List.mem_cons_of_mem _ hm)

theorem pairsOk_append (a b : List Char) (ha : pairsOk a = true)
    (hb : pairsOk b = true)
    (hseam : ∀ x y, a.getLast? = some x → b.head? = some y →
      (!((x = nlChar && y = btChar) || (x = btChar && y = nlChar))) = true) :
    pairsOk (a ++ b) = true := by
  match a with
  | [] => simpa using hb
  | [x] =>
    match b with
    | [] => simpa using ha
    | y :: bs =>
      simp only [List.cons_append, List.nil_append, pairsOk, Bool.and_eq_true]
      exact ⟨hseam x y rfl rfl, hb⟩
  | x1 :: x2 :: as =>
    simp only [List.cons_append, pairsOk, Bool.and_eq_true]
    constructor
    · simp only [pairsOk, Bool.and_eq_true] at ha
      exact ha.1
    · have := pairsOk_append (x2 :: as) b (pairsOk_tail _ _ ha) hb
        (by
          intro x y hx hy
          exact hseam x y (by rw [List.getLast?_cons_cons]; exact hx) hy)
      simpa using this

theorem headNotBt_of_not_mem (l : List Char) (h : btChar ∉ l) :
    headNotBt l = true := by
  cases l with
  | nil => rfl
  | cons c t =>
    simp only [headNotBt, Bool.not_eq_true', decide_eq_false_iff_not]
    intro he
    subst he
    exact h (List.mem_cons_self _ _)

theorem headNotBt_append (a b : List Char) (h : a ≠ []) :
    headNotBt (a ++ b) = headNotBt a := by
  cases a with
  | nil => exact absurd rfl h
  | cons c t => rfl

theorem lastNotBt_of_not_mem (l : List Char) (h : btChar ∉ l) :
    lastNotBt l = true :=
  headNotBt_of_not_mem l.reverse (by simpa using h)

theorem lastNotBt_append_singleton (l : List Char) (c : Char)
    (h : ¬ c = btChar) : lastNotBt (l ++ [c]) = true := by
  unfold lastNotBt
  rw [List.reverse_append, List.reverse_singleton, List.singleton_append]
  simp [headNotBt, h]

theorem lastNotBt_of_getLast? (l : List Char) (c : Char)
    (hc : l.getLast? = some c) (h : ¬ c = btChar) : lastNotBt l = true := by
  unfold lastNotBt
  rw [← List.head?_reverse] at hc
  cases hr : l.reverse with
  | nil => rw [hr] at hc; simp at hc
  | cons z zs =>
    rw [hr] at hc
    simp only [List.head?_cons, Option.some.injEq] at hc
    subst hc
    simp [headNotBt, h]

theorem getLast?_ne_bt_of_lastNotBt (l : List Char) (c : Char)
    (hl : lastNotBt l = true) (hc : l.getLast? = some c) : ¬ c = btChar := by
  unfold lastNotBt at hl
  rw [← List.head?_reverse] at hc
  cases hr : l.reverse with
  | nil => rw [hr] at hc; simp at hc
  | cons z zs =>
    rw [hr] at hc
    simp only [List.head?_cons, Option.some.injEq] at hc
    subst hc
    rw [hr] at hl
    simp only [headNotBt, Bool.not_eq_true', decide_eq_false_iff_not] at hl
    exact hl

theorem goodSeg_of_not_mem_bt (l : List Char) (h : btChar ∉ l) : goodSeg l :=
  ⟨pairsOk_of_not_mem_bt l h, headNotBt_of_not_mem l h, lastNotBt_of_not_mem l h⟩

theorem goodSeg_append (a b : List Char) (ha : goodSeg a) (hb : goodSeg b) :
    goodSeg (a ++ b) := by
  obtain ⟨hap, hah, hal⟩ := ha
  obtain ⟨hbp, hbh, hbl⟩ := hb
  refine ⟨?_, ?_, ?_⟩
  · apply pairsOk_append a b hap hbp
    intro x y hx hy
    have hxb : ¬ x = btChar := getLast?_ne_bt_of_lastNotBt a x hal hx
    have hyb : ¬ y = btChar := by
      cases b with
      | nil => simp at hy
      | cons c t =>
        simp only [List.head?_cons, Option.some.injEq] at hy
        subst hy
        simp only [headNotBt, Bool.not_eq_true', decide_eq_false_iff_not] at hbh
        exact hbh
    simp [hxb, hyb]
  · cases a with
    | nil => simpa using hbh
    | cons c t =>
      rw [headNotBt_append _ _ (by simp)]
      exact hah
  · cases b with
    | nil => simpa using hal
    | cons c t =>
      unfold lastNotBt
      rw [List.reverse_append, headNotBt_append _ _ (by simp)]
      exact hbl

/-- whitespace runs taken by the decoder contain no backtick -/
theorem goodSeg_ws (l : List Char) : goodSeg (l.takeWhile isJsonWs) :=
  goodSeg_of_not_mem_bt _ (by
    intro hm
    exact absurd (List.mem_takeWhile_imp hm) (by decide))

theorem goodSeg_single (c : Char) (h : ¬ c = btChar) : goodSeg [c] :=
  goodSeg_of_not_mem_bt _ (by
    intro hm
    simp only [List.mem_singleton] at hm
    exact h hm.symm)

/-- a string-literal segment: a quote, a newline-free body ending in the
closing quote -/
theorem goodSeg_string (pre : List Char) (hnl : nlChar ∉ pre)
    (hlast : pre.getLast? = some dqChar) : goodSeg (dqChar :: pre) := by
  refine ⟨?_, rfl, ?_⟩
  · apply pairsOk_of_not_mem_nl
    intro hm
    rcases List.mem_cons.mp hm with hm | hm
    · exact absurd hm (by decide)
    · exact hnl hm
  · apply lastNotBt_of_getLast? _ dqChar _ (by decide)
    cases pre with
    | nil => simp at hlast
    | cons p0 ps => simpa using hlast

theorem pairsOk_dropWhile (p : Char → Bool) :
    ∀ (l : List Char), pairsOk l = true → pairsOk (l.dropWhile p) = true := by
  intro l
  induction l with
  | nil => intro h; simpa using h
  | cons c cs ih =>
    intro h
    by_cases hc : p c = true
    · rw [List.dropWhile_cons_of_pos hc]
      exact ih (pairsOk_tail _ _ h)
    · rw [List.dropWhile_cons_of_neg hc]
      exact h

theorem lastNotBt_dropWhile (p : Char → Bool) (l : List Char)
    (h : l.dropWhile p ≠ []) (hl : lastNotBt l = true) :
    lastNotBt (l.dropWhile p) = true := by
  unfold lastNotBt at hl ⊢
  conv at hl => rw [← List.takeWhile_append_dropWhile p l]
  rw [List.reverse_append] at hl
  rwa [headNotBt_append _ _ (by simpa using h)] at hl

theorem isTicks3_decomp (l : List Char) (h : isTicks3 l = true) :
    ∃ t, l = btChar :: btChar :: btChar :: t := by
  match l with
  | [] => simp [isTicks3] at h
  | [_] => simp [isTicks3] at h
  | [_, _] => simp [isTicks3] at h
  | a :: b :: c :: t =>
    simp only [isTicks3, Bool.and_eq_true, decide_eq_true_eq] at h
    obtain ⟨⟨ha, hb⟩, hc⟩ := h
    subst ha
    subst hb
    subst hc
    exact ⟨t, rfl⟩

/-- the first substitution passes over a run satisfying the adjacency
invariant unchanged (its line starts never carry a backtick), updating the
line-start flag from its characters -/
theorem sub1F_pass : ∀ (l : List Char), pairsOk l = true →
    ∀ fuel rest flag, (flag = true → headNotBt l = true) →
    sub1F fuel (l ++ rest) flag =
      l ++ sub1F (fuel - l.length) rest (flagAfter l flag) := by
  intro l
  induction l with
  | nil =>
    intro _ fuel rest flag _
    simp [flagAfter]
  | cons c ls ih =>
    intro hp fuel rest flag hh
    match fuel with
    | 0 =>
      cases rest with
      | nil => simp [sub1F]
      | cons r rs => simp [sub1F]
    | fuel + 1 =>
      have hcond : (flag && isTicks3 (c :: (ls ++ rest))) = false := by
        by_cases hf : flag = true
        · have hhh := hh hf
          simp only [headNotBt, Bool.not_eq_true', decide_eq_false_iff_not] at hhh
          simp [isTicks3_cons_false c _ hhh]
        · have hf' : flag = false := by
            cases flag
            · rfl
            · exact absurd rfl hf
          simp [hf']
      have hnext : ((c = nlChar : Bool) = true → headNotBt ls = true) := by
        intro hcnl
        have hc : c = nlChar := by simpa using hcnl
        subst hc
        cases ls with
        | nil => rfl
        | cons y t =>
          have hpair := pairsOk_pair nlChar y t hp
          have hy : ¬ y = btChar := fun he => hpair.1 ⟨rfl, he⟩
          simp [headNotBt, hy]
      rw [List.cons_append,
          show sub1F (fuel + 1) (c :: (ls ++ rest)) flag
            = c :: sub1F fuel (ls ++ rest) (c = nlChar) from by simp [sub1F, hcond],
          ih (pairsOk_tail _ _ hp) fuel rest (c = nlChar) hnext]
      simp [flagAfter, Nat.succ_sub_succ]

/-- the opening-fence step of the first substitution -/
theorem sub1F_fence (fuel : Nat) (cs : List Char)
    (h : isTicks3 (btChar :: cs) = true) :
    sub1F (fuel + 1) (btChar :: cs) true =
      sub1F fuel (afterTicksRest cs) (afterTicksFlag cs) := by
  simp [sub1F, h]

/-- the second substitution leaves text satisfying the adjacency invariant
unchanged: a closing-fence match would need three backticks ending a line
or the text, impossible when no backtick precedes a newline and the text
does not end in one -/
theorem sub2F_pass : ∀ (l : List Char), pairsOk l = true →
    lastNotBt l = true → ∀ fuel, sub2F fuel l = l := by
  intro l
  induction l with
  | nil =>
    intro _ _ fuel
    cases fuel <;> rfl
  | cons c cs ih =>
    intro hp hl fuel
    have ht : ticksEndHere (c :: cs) = false := by
      cases h' : ticksEndHere (c :: cs) with
      | false => rfl
      | true =>
        exfalso
        simp only [ticksEndHere, Bool.and_eq_true] at h'
        obtain ⟨hT, hE⟩ := h'
        obtain ⟨t, hdec⟩ := isTicks3_decomp _ hT
        have hdp : pairsOk ((c :: cs).dropWhile isPyWs) = true :=
          pairsOk_dropWhile isPyWs _ hp
        have hdl : lastNotBt ((c :: cs).dropWhile isPyWs) = true :=
          lastNotBt_dropWhile isPyWs _ (by rw [hdec]; simp) hl
        rw [hdec] at hdp hdl hE
        cases t with
        | nil => exact absurd hdl (by decide)
        | cons u t' =>
          have hu : u = nlChar := by simpa using hE
          subst hu
          have h3 := pairsOk_pair btChar nlChar t'
            (pairsOk_tail _ _ (pairsOk_tail _ _ hdp))
          exact h3.2 ⟨rfl, rfl⟩
    match fuel with
    | 0 => rfl
    | fuel + 1 =>
      have hcs_l : lastNotBt cs = true := by
        cases cs with
        | nil => rfl
        | cons d ds =>
          unfold lastNotBt at hl ⊢
          rw [show (c :: d :: ds).reverse = (d :: ds).reverse ++ [c] from by simp] at hl
          rwa [headNotBt_append _ _ (by simp)] at hl
      simp [sub2F, ht, ih (pairsOk_tail _ _ hp) hcs_l fuel]

theorem numValue_ne_obj (pl : Bool ⊕ (Int × List Char × Option Int))
    (m : List (String × JsonValue)) : numValue pl ≠ JsonValue.obj m := by
  match pl with
  | Sum.inl b => simp [numValue]
  | Sum.inr (i, fd, ex) => simp [numValue]

/-- a value parse that produces an object can only have entered through a
left brace at the head of the input -/
theorem parseValue_obj_head (f : Nat) (cs : List Char)
    (m : List (String × JsonValue)) (r : List Char)
    (h : parseValue f cs = some (JsonValue.obj m, r)) :
    ∃ t, cs = lbrace :: t := by
  match f, cs with
  | 0, _ => simp [parseValue] at h
  | _ + 1, [] => simp [parseValue] at h
  | fuel + 1, c :: rest =>
    by_cases h1 : c = lbrace
    · exact ⟨rest, by rw [h1]⟩
    · exfalso
      simp only [parseValue, if_neg h1] at h
      repeat' split at h
      all_goals simp_all [numValue_ne_obj]

/-- a successful object decode pins the head of the stripped text -/
theorem json_loads_list_obj_head (cs : List Char)
    (m : List (String × JsonValue))
    (h : json_loads_list cs = some (JsonValue.obj m)) :
    ∃ t, stripJsonWs cs = lbrace :: t := by
  simp only [json_loads_list] at h
  cases hp : parseValue ((stripJsonWs cs).length + 1) (stripJsonWs cs) with
  | none =>
    rw [hp] at h
    simp at h
  | some pr =>
    obtain ⟨v, rest⟩ := pr
    rw [hp] at h
    cases rest with
    | nil =>
      simp only [Option.some.injEq] at h
      subst h
      exact parseValue_obj_head _ _ _ _ hp
    | cons x xs => simp at h

/-- the decode depends only on the whitespace-stripped text -/
theorem json_loads_list_congr (a b : List Char)
    (h : stripJsonWs a = stripJsonWs b) :
    json_loads_list a = json_loads_list b := by
  simp only [json_loads_list]
  rw [h]

/-! What each parse function consumes.  Every success of a parse function
splits its input into the consumed prefix and the returned remainder, and
the consumed prefix satisfies the adjacency invariant: it is assembled
from whitespace runs, punctuation, digit and letter tokens (none of which
contain a backtick) and string literals (newline-free and delimited by
quotes). -/

theorem dropLit_split : ∀ (lit cs r : List Char), dropLit lit cs = some r →
    cs = lit ++ r := by
  intro lit
  induction lit with
  | nil =>
    intro cs r h
    simp only [dropLit, Option.some.injEq] at h
    simp [h]
  | cons l ls ih =>
    intro cs r h
    cases cs with
    | nil => simp [dropLit] at h
    | cons c cs' =>
      simp only [dropLit] at h
      by_cases hc : c = l
      · rw [if_pos hc] at h
        rw [hc, List.cons_append]
        exact congrArg _ (ih cs' r h)
      · rw [if_neg hc] at h
        simp at h

theorem hexVal_ne_nl (c : Char) (h : hexVal c ≠ none) : ¬ c = nlChar := by
  intro he
  subst he
  exact h (by decide)

theorem parseHex4_split (l : List Char) (u : Char) (r : List Char)
    (h : parseHex4 l = some (u, r)) :
    ∃ a b c d, l = a :: b :: c :: d :: r ∧ hexVal a ≠ none ∧
      hexVal b ≠ none ∧ hexVal c ≠ none ∧ hexVal d ≠ none := by
  match l with
  | [] => simp [parseHex4] at h
  | [_] => simp [parseHex4] at h
  | [_, _] => simp [parseHex4] at h
  | [_, _, _] => simp [parseHex4] at h
  | a :: b :: c :: d :: rest =>
    simp only [parseHex4] at h
    cases ha : hexVal a with
    | none => rw [ha] at h; simp at h
    | some x =>
      rw [ha] at h
      cases hb : hexVal b with
      | none => rw [hb] at h; simp at h
      | some y =>
        rw [hb] at h
        cases hc : hexVal c with
        | none => rw [hc] at h; simp at h
        | some z =>
          rw [hc] at h
          cases hd : hexVal d with
          | none => rw [hd] at h; simp at h
          | some w =>
            rw [hd] at h
            simp only [Option.some.injEq, Prod.mk.injEq] at h
            exact ⟨a, b, c, d, by rw [h.2], by simp [ha], by simp [hb],
              by simp [hc], by simp [hd]⟩

/-- prepending one non-newline consumed character to a string-literal
split -/
theorem psb_cons1 (c : Char) (r1 r : List Char) (hc : ¬ c = nlChar)
    (pre : List Char) (hpre : r1 = pre ++ r) (hnl : nlChar ∉ pre)
    (hlast : pre.getLast? = some dqChar) :
    ∃ pre', (c :: r1 : List Char) = pre' ++ r ∧ nlChar ∉ pre' ∧
      pre'.getLast? = some dqChar := by
  obtain ⟨p0, ps, rfl⟩ : ∃ p0 ps, pre = p0 :: ps := by
    cases pre with
    | nil => simp at hlast
    | cons p0 ps => exact ⟨p0, ps, rfl⟩
  refine ⟨c :: p0 :: ps, by simp [hpre], ?_, by simpa using hlast⟩
  intro hm
  rcases List.mem_cons.mp hm with hm | hm
  · exact hc hm.symm
  · exact hnl hm

/-- a string-literal body consumes a newline-free run ending in the
closing quote -/
theorem parseStringBody_split : ∀ (fuel : Nat) (cs acc : List Char)
    (s : String) (r : List Char),
    parseStringBody fuel cs acc = some (s, r) →
    ∃ pre, cs = pre ++ r ∧ nlChar ∉ pre ∧ pre.getLast? = some dqChar := by
  intro fuel
  induction fuel with
  | zero =>
    intro cs acc s r h
    simp [parseStringBody] at h
  | succ fuel ih =>
    intro cs acc s r h
    match cs with
    | [] => simp [parseStringBody] at h
    | c :: rest =>
      simp only [parseStringBody] at h
      by_cases h1 : c = dqChar
      · rw [if_pos h1] at h
        simp only [Option.some.injEq, Prod.mk.injEq] at h
        obtain ⟨-, hr⟩ := h
        subst hr
        subst h1
        exact ⟨[dqChar], rfl, by decide, rfl⟩
      · rw [if_neg h1] at h
        by_cases h2 : c = bslash
        · rw [if_pos h2] at h
          match rest with
          | [] => simp at h
          | e :: r1 =>
            simp only [] at h
            by_cases he1 : e = dqChar
            · rw [if_pos he1] at h
              obtain ⟨pre, hpre, hnl, hlast⟩ := ih r1 _ s r h
              obtain ⟨p1, a1, b1, c1⟩ :=
                psb_cons1 e r1 r (by rw [he1]; decide) pre hpre hnl hlast
              exact psb_cons1 c (e :: r1) r (by rw [h2]; decide) p1 a1 b1 c1
            · rw [if_neg he1] at h
              by_cases he2 : e = bslash
              · rw [if_pos he2] at h
                obtain ⟨pre, hpre, hnl, hlast⟩ := ih r1 _ s r h
                obtain ⟨p1, a1, b1, c1⟩ :=
                  psb_cons1 e r1 r (by rw [he2]; decide) pre hpre hnl hlast
                exact psb_cons1 c (e :: r1) r (by rw [h2]; decide) p1 a1 b1 c1
              · rw [if_neg he2] at h
                by_cases he3 : e = '/'
                · rw [if_pos he3] at h
                  obtain ⟨pre, hpre, hnl, hlast⟩ := ih r1 _ s r h
                  obtain ⟨p1, a1, b1, c1⟩ :=
                    psb_cons1 e r1 r (by rw [he3]; decide) pre hpre hnl hlast
                  exact psb_cons1 c (e :: r1) r (by rw [h2]; decide) p1 a1 b1 c1
                · rw [if_neg he3] at h
                  by_cases he4 : e = 'b'
                  · rw [if_pos he4] at h
                    obtain ⟨pre, hpre, hnl, hlast⟩ := ih r1 _ s r h
                    obtain ⟨p1, a1, b1, c1⟩ :=
                      psb_cons1 e r1 r (by rw [he4]; decide) pre hpre hnl hlast
                    exact psb_cons1 c (e :: r1) r (by rw [h2]; decide) p1 a1 b1 c1
                  · rw [if_neg he4] at h
                    by_cases he5 : e = 'f'
                    · rw [if_pos he5] at h
                      obtain ⟨pre, hpre, hnl, hlast⟩ := ih r1 _ s r h
                      obtain ⟨p1, a1, b1, c1⟩ :=
                        psb_cons1 e r1 r (by rw [he5]; decide) pre hpre hnl hlast
                      exact psb_cons1 c (e :: r1) r (by rw [h2]; decide) p1 a1 b1 c1
                    · rw [if_neg he5] at h
                      by_cases he6 : e = 'n'
                      · rw [if_pos he6] at h
                        obtain ⟨pre, hpre, hnl, hlast⟩ := ih r1 _ s r h
                        obtain ⟨p1, a1, b1, c1⟩ :=
                          psb_cons1 e r1 r (by rw [he6]; decide) pre hpre hnl hlast
                        exact psb_cons1 c (e :: r1) r (by rw [h2]; decide) p1 a1 b1 c1
                      · rw [if_neg he6] at h
                        by_cases he7 : e = 'r'
                        · rw [if_pos he7] at h
                          obtain ⟨pre, hpre, hnl, hlast⟩ := ih r1 _ s r h
                          obtain ⟨p1, a1, b1, c1⟩ :=
                            psb_cons1 e r1 r (by rw [he7]; decide) pre hpre hnl hlast
                          exact psb_cons1 c (e :: r1) r (by rw [h2]; decide) p1 a1 b1 c1
                        · rw [if_neg he7] at h
                          by_cases he8 : e = 't'
                          · rw [if_pos he8] at h
                            obtain ⟨pre, hpre, hnl, hlast⟩ := ih r1 _ s r h
                            obtain ⟨p1, a1, b1, c1⟩ :=
                              psb_cons1 e r1 r (by rw [he8]; decide) pre hpre hnl hlast
                            exact psb_cons1 c (e :: r1) r (by rw [h2]; decide) p1 a1 b1 c1
                          · rw [if_neg he8] at h
                            by_cases he9 : e = 'u'
                            · rw [if_pos he9] at h
                              cases hp4 : parseHex4 r1 with
                              | none => rw [hp4] at h; simp at h
                              | some pr =>
                                obtain ⟨u, r2⟩ := pr
                                rw [hp4] at h
                                obtain ⟨pre, hpre, hnl, hlast⟩ := ih r2 _ s r h
                                obtain ⟨a, b, c4, d, hr1, hva, hvb, hvc, hvd⟩ :=
                                  parseHex4_split r1 u r2 hp4
                                obtain ⟨p1, a1, b1, c1⟩ :=
                                  psb_cons1 d r2 r (hexVal_ne_nl d hvd) pre hpre hnl hlast
                                obtain ⟨p2, a2, b2, c2⟩ :=
                                  psb_cons1 c4 (d :: r2) r (hexVal_ne_nl c4 hvc) p1 a1 b1 c1
                                obtain ⟨p3, a3, b3, c3⟩ :=
                                  psb_cons1 b (c4 :: d :: r2) r (hexVal_ne_nl b hvb) p2 a2 b2 c2
                                obtain ⟨p4, a4, b4, c4'⟩ :=
                                  psb_cons1 a (b :: c4 :: d :: r2) r (hexVal_ne_nl a hva) p3 a3 b3 c3
                                obtain ⟨p5, a5, b5, c5⟩ :=
                                  psb_cons1 e (a :: b :: c4 :: d :: r2) r (by rw [he9]; decide) p4 a4 b4 c4'
                                rw [hr1]
                                exact psb_cons1 c (e :: a :: b :: c4 :: d :: r2) r
                                  (by rw [h2]; decide) p5 a5 b5 c5
                            · rw [if_neg he9] at h
                              simp at h
        · rw [if_neg h2] at h
          by_cases h3 : c.toNat < 32
          · rw [if_pos h3] at h
            simp at h
          · rw [if_neg h3] at h
            obtain ⟨pre, hpre, hnl, hlast⟩ := ih rest _ s r h
            refine psb_cons1 c rest r ?_ pre hpre hnl hlast
            intro he
            subst he
            exact h3 (by decide)

theorem not_mem_bt_takeWhile_digit (l : List Char) :
    btChar ∉ l.takeWhile Char.isDigit := by
  intro hm
  exact absurd (List.mem_takeWhile_imp hm) (by decide)

theorem expSign_split (r4 : List Char) :
    ∃ sp, r4 = sp ++ (expSign r4).2 ∧ btChar ∉ sp := by
  cases r4 with
  | nil => exact ⟨[], by simp [expSign], by simp⟩
  | cons d r5 =>
    by_cases hd : d = '-'
    · refine ⟨[d], by simp [expSign, hd], ?_⟩
      intro hm
      simp only [List.mem_singleton] at hm
      rw [hd] at hm
      exact absurd hm (by decide)
    · by_cases hp : d = '+'
      · refine ⟨[d], by simp [expSign, hd, hp], ?_⟩
        intro hm
        simp only [List.mem_singleton] at hm
        rw [hp] at hm
        exact absurd hm (by decide)
      · exact ⟨[], by simp [expSign, hd, hp], by simp⟩

theorem parseExp_split (i : Int) (fd r3 : List Char)
    (pl : Bool ⊕ (Int × List Char × Option Int)) (r : List Char)
    (h : parseExp i fd r3 = some (pl, r)) :
    ∃ pre, r3 = pre ++ r ∧ btChar ∉ pre := by
  cases r3 with
  | nil =>
    simp only [parseExp, Option.some.injEq, Prod.mk.injEq] at h
    exact ⟨[], by simp [h.2], by simp⟩
  | cons c r4 =>
    simp only [parseExp] at h
    by_cases hce : (c = 'e' || c = 'E') = true
    · rw [if_pos hce] at h
      split at h
      · simp at h
      · simp only [Option.some.injEq, Prod.mk.injEq] at h
        obtain ⟨-, hr⟩ := h
        obtain ⟨sp, hsp, hbsp⟩ := expSign_split r4
        set E := (expSign r4).2 with hE
        refine ⟨c :: (sp ++ E.takeWhile Char.isDigit), ?_, ?_⟩
        · rw [← hr, List.cons_append]
          congr 1
          rw [hsp, List.append_assoc]
          congr 1
          exact (List.takeWhile_append_dropWhile _ _).symm
        · intro hm
          rcases List.mem_cons.mp hm with hm | hm
          · rw [← hm] at hce
            exact absurd hce (by decide)
          · rcases List.mem_append.mp hm with hm | hm
            · exact hbsp hm
            · exact not_mem_bt_takeWhile_digit _ hm
    · rw [if_neg hce] at h
      simp only [Option.some.injEq, Prod.mk.injEq] at h
      exact ⟨[], by simp [h.2], by simp⟩

theorem parseFrac_split (i : Int) (r1 : List Char)
    (pl : Bool ⊕ (Int × List Char × Option Int)) (r : List Char)
    (h : parseFrac i r1 = some (pl, r)) :
    ∃ pre, r1 = pre ++ r ∧ btChar ∉ pre := by
  cases r1 with
  | nil => exact parseExp_split i [] [] pl r h
  | cons c r2 =>
    simp only [parseFrac] at h
    by_cases hc : c = '.'
    · rw [if_pos hc] at h
      split at h
      · simp at h
      · obtain ⟨preE, hE, hbE⟩ := parseExp_split i _ _ pl r h
        refine ⟨c :: (r2.takeWhile Char.isDigit ++ preE), ?_, ?_⟩
        · rw [List.cons_append]
          congr 1
          rw [List.append_assoc, ← hE]
          exact (List.takeWhile_append_dropWhile _ _).symm
        · intro hm
          rcases List.mem_cons.mp hm with hm | hm
          · rw [hc] at hm
            exact absurd hm (by decide)
          · rcases List.mem_append.mp hm with hm | hm
            · exact not_mem_bt_takeWhile_digit _ hm
            · exact hbE hm
    · rw [if_neg hc] at h
      exact parseExp_split i [] (c :: r2) pl r h

theorem parseNumCore_split (neg : Bool) (cs1 : List Char)
    (pl : Bool ⊕ (Int × List Char × Option Int)) (r : List Char)
    (h : parseNumCore neg cs1 = some (pl, r)) :
    ∃ pre, cs1 = pre ++ r ∧ btChar ∉ pre := by
  simp only [parseNumCore] at h
  cases hInf : dropLit ['I', 'n', 'f', 'i', 'n', 'i', 't', 'y'] cs1 with
  | some rr =>
    rw [hInf] at h
    simp only [] at h
    have hsplit := dropLit_split _ _ _ hInf
    have hr : rr = r := by
      split at h <;>
        · simp only [Option.some.injEq, Prod.mk.injEq] at h
          exact h.2
    subst hr
    exact ⟨['I', 'n', 'f', 'i', 'n', 'i', 't', 'y'], hsplit, by decide⟩
  | none =>
    rw [hInf] at h
    simp only [] at h
    split at h
    · simp at h
    · split at h
      · simp at h
      · obtain ⟨preF, hF, hbF⟩ := parseFrac_split _ _ pl r h
        refine ⟨cs1.takeWhile Char.isDigit ++ preF, ?_, ?_⟩
        · rw [List.append_assoc, ← hF]
          exact (List.takeWhile_append_dropWhile _ _).symm
        · intro hm
          rcases List.mem_append.mp hm with hm | hm
          · exact not_mem_bt_takeWhile_digit _ hm
          · exact hbF hm

theorem parseNumber_split (cs : List Char)
    (pl : Bool ⊕ (Int × List Char × Option Int)) (r : List Char)
    (h : parseNumber cs = some (pl, r)) :
    ∃ pre, cs = pre ++ r ∧ btChar ∉ pre := by
  unfold parseNumber at h
  obtain ⟨preC, hC, hbC⟩ := parseNumCore_split _ _ _ _ h
  cases cs with
  | nil =>
    refine ⟨preC, ?_, hbC⟩
    simpa [numSign] using hC
  | cons c t =>
    by_cases hc : c = '-'
    · simp only [numSign, if_pos hc] at hC
      refine ⟨c :: preC, by simp [hC], ?_⟩
      intro hm
      rcases List.mem_cons.mp hm with hm | hm
      · rw [hc] at hm
        exact absurd hm (by decide)
      · exact hbC hm
    · simp only [numSign, if_neg hc] at hC
      exact ⟨preC, hC, hbC⟩

/-! Assembling consumed prefixes.  `seg_refl`, `seg_cons`, `seg_dropWhile`
and `seg_trans` compose the split of an input into consumed prefix and
remainder while carrying the adjacency invariant of the prefix. -/

theorem seg_refl (r : List Char) : ∃ pre, r = pre ++ r ∧ goodSeg pre :=
  ⟨[], rfl, ⟨rfl, rfl, rfl⟩⟩

theorem seg_cons (c : Char) (hc : ¬ c = btChar) (t r : List Char)
    (h : ∃ pre, t = pre ++ r ∧ goodSeg pre) :
    ∃ pre, (c :: t : List Char) = pre ++ r ∧ goodSeg pre := by
  obtain ⟨p, hp, gp⟩ := h
  exact ⟨c :: p, by simp [hp],
    goodSeg_append [c] p (goodSeg_single c hc) gp⟩

theorem seg_dropWhile (l r : List Char)
    (h : ∃ pre, l.dropWhile isJsonWs = pre ++ r ∧ goodSeg pre) :
    ∃ pre, l = pre ++ r ∧ goodSeg pre := by
  obtain ⟨p, hp, gp⟩ := h
  refine ⟨l.takeWhile isJsonWs ++ p, ?_, goodSeg_append _ _ (goodSeg_ws l) gp⟩
  rw [List.append_assoc, ← hp, List.takeWhile_append_dropWhile]

theorem seg_trans (a b r p1 : List Char) (h1 : a = p1 ++ b) (g1 : goodSeg p1)
    (h2 : ∃ pre, b = pre ++ r ∧ goodSeg pre) :
    ∃ pre, a = pre ++ r ∧ goodSeg pre := by
  obtain ⟨p2, hp2, gp2⟩ := h2
  exact ⟨p1 ++ p2, by rw [h1, hp2, List.append_assoc], goodSeg_append _ _ g1 gp2⟩

theorem seg_string (fuel : Nat) (rest acc : List Char) (s : String)
    (r : List Char) (h : parseStringBody fuel rest acc = some (s, r)) :
    ∃ pre, (dqChar :: rest : List Char) = pre ++ r ∧ goodSeg pre := by
  obtain ⟨pre, hpre, hnl, hlast⟩ := parseStringBody_split fuel rest acc s r h
  exact ⟨dqChar :: pre, by simp [hpre], goodSeg_string pre hnl hlast⟩

theorem seg_lit (lit rest r : List Char) (hbt : btChar ∉ lit)
    (h : dropLit lit rest = some r) (c : Char) (hc : ¬ c = btChar) :
    ∃ pre, (c :: rest : List Char) = pre ++ r ∧ goodSeg pre := by
  have hsplit := dropLit_split lit rest r h
  exact ⟨c :: lit, by simp [hsplit],
    goodSeg_append [c] lit (goodSeg_single c hc) (goodSeg_of_not_mem_bt lit hbt)⟩

theorem seg_num (cs : List Char) (pl : Bool ⊕ (Int × List Char × Option Int))
    (r : List Char) (h : parseNumber cs = some (pl, r)) :
    ∃ pre, cs = pre ++ r ∧ goodSeg pre := by
  obtain ⟨pre, hpre, hbt⟩ := parseNumber_split cs pl r h
  exact ⟨pre, hpre, goodSeg_of_not_mem_bt pre hbt⟩

/-- every success of the three mutual parse functions splits its input into
the consumed prefix and the returned remainder, and the consumed prefix
satisfies the adjacency invariant -/
theorem parse_split_all : ∀ fuel : Nat,
    (∀ cs v r, parseValue fuel cs = some (v, r) →
      ∃ pre, cs = pre ++ r ∧ goodSeg pre) ∧
    (∀ cs acc ms r, parseMembers fuel cs acc = some (ms, r) →
      ∃ pre, cs = pre ++ r ∧ goodSeg pre) ∧
    (∀ cs acc es r, parseElems fuel cs acc = some (es, r) →
      ∃ pre, cs = pre ++ r ∧ goodSeg pre) := by
  intro fuel
  induction fuel with
  | zero =>
    refine ⟨?_, ?_, ?_⟩
    · intro cs v r h; simp [parseValue] at h
    · intro cs acc ms r h; simp [parseMembers] at h
    · intro cs acc es r h; simp [parseElems] at h
  | succ fuel ih =>
    obtain ⟨ihV, ihM, ihE⟩ := ih
    refine ⟨?_, ?_, ?_⟩
    · intro cs v r h
      match cs with
      | [] => simp [parseValue] at h
      | c :: rest =>
        simp only [parseValue] at h
        by_cases h1 : c = lbrace
        · rw [if_pos h1] at h
          cases hd : rest.dropWhile isJsonWs with
          | nil => rw [hd] at h; simp at h
          | cons d r1 =>
            rw [hd] at h
            simp only [] at h
            by_cases hdr : d = rbrace
            · rw [if_pos hdr] at h
              simp only [Option.some.injEq, Prod.mk.injEq] at h
              obtain ⟨-, hr⟩ := h
              subst hr
              refine seg_cons c (by rw [h1]; decide) rest r1 ?_
              refine seg_dropWhile rest r1 ?_
              rw [hd]
              exact seg_cons d (by rw [hdr]; decide) r1 r1 (seg_refl r1)
            · rw [if_neg hdr] at h
              cases hpm : parseMembers fuel (d :: r1) [] with
              | none => rw [hpm] at h; simp at h
              | some pr =>
                obtain ⟨ms, r2⟩ := pr
                rw [hpm] at h
                simp only [Option.some.injEq, Prod.mk.injEq] at h
                obtain ⟨-, hr⟩ := h
                subst hr
                refine seg_cons c (by rw [h1]; decide) rest r2 ?_
                refine seg_dropWhile rest r2 ?_
                rw [hd]
                exact ihM (d :: r1) [] ms r2 hpm
        · rw [if_neg h1] at h
          by_cases h2 : c = '['
          · rw [if_pos h2] at h
            cases hd : rest.dropWhile isJsonWs with
            | nil => rw [hd] at h; simp at h
            | cons d r1 =>
              rw [hd] at h
              simp only [] at h
              by_cases hdr : d = ']'
              · rw [if_pos hdr] at h
                simp only [Option.some.injEq, Prod.mk.injEq] at h
                obtain ⟨-, hr⟩ := h
                subst hr
                refine seg_cons c (by rw [h2]; decide) rest r1 ?_
                refine seg_dropWhile rest r1 ?_
                rw [hd]
                exact seg_cons d (by rw [hdr]; decide) r1 r1 (seg_refl r1)
              · rw [if_neg hdr] at h
                cases hpe : parseElems fuel (d :: r1) [] with
                | none => rw [hpe] at h; simp at h
                | some pr =>
                  obtain ⟨es, r2⟩ := pr
                  rw [hpe] at h
                  simp only [Option.some.injEq, Prod.mk.injEq] at h
                  obtain ⟨-, hr⟩ := h
                  subst hr
                  refine seg_cons c (by rw [h2]; decide) rest r2 ?_
                  refine seg_dropWhile rest r2 ?_
                  rw [hd]
                  exact ihE (d :: r1) [] es r2 hpe
          · rw [if_neg h2] at h
            by_cases h3 : c = dqChar
            · rw [if_pos h3] at h
              cases hps : parseStringBody fuel rest [] with
              | none => rw [hps] at h; simp at h
              | some pr =>
                obtain ⟨s, r1⟩ := pr
                rw [hps] at h
                simp only [Option.some.injEq, Prod.mk.injEq] at h
                obtain ⟨-, hr⟩ := h
                subst hr
                rw [h3]
                exact seg_string fuel rest [] s r1 hps
            · rw [if_neg h3] at h
              by_cases h4 : c = 't'
              · rw [if_pos h4] at h
                cases hdl : dropLit ['r', 'u', 'e'] rest with
                | none => rw [hdl] at h; simp at h
                | some r1 =>
                  rw [hdl] at h
                  simp only [Option.some.injEq, Prod.mk.injEq] at h
                  obtain ⟨-, hr⟩ := h
                  subst hr
                  exact seg_lit _ rest r1 (by decide) hdl c (by rw [h4]; decide)
              · rw [if_neg h4] at h
                by_cases h5 : c = 'f'
                · rw [if_pos h5] at h
                  cases hdl : dropLit ['a', 'l', 's', 'e'] rest with
                  | none => rw [hdl] at h; simp at h
                  | some r1 =>
                    rw [hdl] at h
                    simp only [Option.some.injEq, Prod.mk.injEq] at h
                    obtain ⟨-, hr⟩ := h
                    subst hr
                    exact seg_lit _ rest r1 (by decide) hdl c (by rw [h5]; decide)
                · rw [if_neg h5] at h
                  by_cases h6 : c = 'n'
                  · rw [if_pos h6] at h
                    cases hdl : dropLit ['u', 'l', 'l'] rest with
                    | none => rw [hdl] at h; simp at h
                    | some r1 =>
                      rw [hdl] at h
                      simp only [Option.some.injEq, Prod.mk.injEq] at h
                      obtain ⟨-, hr⟩ := h
                      subst hr
                      exact seg_lit _ rest r1 (by decide) hdl c (by rw [h6]; decide)
                  · rw [if_neg h6] at h
                    by_cases h7 : c = 'N'
                    · rw [if_pos h7] at h
                      cases hdl : dropLit ['a', 'N'] rest with
                      | none => rw [hdl] at h; simp at h
                      | some r1 =>
                        rw [hdl] at h
                        simp only [Option.some.injEq, Prod.mk.injEq] at h
                        obtain ⟨-, hr⟩ := h
                        subst hr
                        exact seg_lit _ rest r1 (by decide) hdl c
                          (by rw [h7]; decide)
                    · rw [if_neg h7] at h
                      by_cases h8 : (c = 'I' || c = '-' || c.isDigit) = true
                      · rw [if_pos h8] at h
                        cases hpn : parseNumber (c :: rest) with
                        | none => rw [hpn] at h; simp at h
                        | some pr =>
                          obtain ⟨pl, r1⟩ := pr
                          rw [hpn] at h
                          simp only [Option.some.injEq, Prod.mk.injEq] at h
                          obtain ⟨-, hr⟩ := h
                          subst hr
                          exact seg_num (c :: rest) pl r1 hpn
                      · rw [if_neg h8] at h
                        simp at h
    · intro cs acc ms r h
      match cs with
      | [] => simp [parseMembers] at h
      | c :: rest =>
        simp only [parseMembers] at h
        by_cases h1 : c = dqChar
        · rw [if_pos h1] at h
          cases hps : parseStringBody fuel rest [] with
          | none => rw [hps] at h; simp at h
          | some pr =>
            obtain ⟨k, r1⟩ := pr
            rw [hps] at h
            simp only [] at h
            cases hd1 : r1.dropWhile isJsonWs with
            | nil => rw [hd1] at h; simp at h
            | cons d r2 =>
              rw [hd1] at h
              simp only [] at h
              by_cases h2 : d = ':'
              · rw [if_pos h2] at h
                cases hpv : parseValue fuel (r2.dropWhile isJsonWs) with
                | none => rw [hpv] at h; simp at h
                | some pv =>
                  obtain ⟨v, r3⟩ := pv
                  rw [hpv] at h
                  simp only [] at h
                  cases hd2 : r3.dropWhile isJsonWs with
                  | nil => rw [hd2] at h; simp at h
                  | cons e r4 =>
                    rw [hd2] at h
                    simp only [] at h
                    by_cases h3 : e = ','
                    · rw [if_pos h3] at h
                      obtain ⟨pS, hS, gS⟩ := seg_string fuel rest [] k r1 hps
                      refine seg_trans (c :: rest) r1 r pS
                        (by rw [h1]; exact hS) gS ?_
                      refine seg_dropWhile r1 r ?_
                      rw [hd1]
                      refine seg_cons d (by rw [h2]; decide) r2 r ?_
                      refine seg_dropWhile r2 r ?_
                      obtain ⟨pV, hV, gV⟩ := ihV (r2.dropWhile isJsonWs) v r3 hpv
                      refine seg_trans _ r3 r pV hV gV ?_
                      refine seg_dropWhile r3 r ?_
                      rw [hd2]
                      refine seg_cons e (by rw [h3]; decide) r4 r ?_
                      refine seg_dropWhile r4 r ?_
                      exact ihM (r4.dropWhile isJsonWs) _ ms r h
                    · rw [if_neg h3] at h
                      by_cases h4 : e = rbrace
                      · rw [if_pos h4] at h
                        simp only [Option.some.injEq, Prod.mk.injEq] at h
                        obtain ⟨-, hr⟩ := h
                        subst hr
                        obtain ⟨pS, hS, gS⟩ := seg_string fuel rest [] k r1 hps
                        refine seg_trans (c :: rest) r1 r4 pS
                          (by rw [h1]; exact hS) gS ?_
                        refine seg_dropWhile r1 r4 ?_
                        rw [hd1]
                        refine seg_cons d (by rw [h2]; decide) r2 r4 ?_
                        refine seg_dropWhile r2 r4 ?_
                        obtain ⟨pV, hV, gV⟩ := ihV (r2.dropWhile isJsonWs) v r3 hpv
                        refine seg_trans _ r3 r4 pV hV gV ?_
                        refine seg_dropWhile r3 r4 ?_
                        rw [hd2]
                        exact seg_cons e (by rw [h4]; decide) r4 r4 (seg_refl r4)
                      · rw [if_neg h4] at h
                        simp at h
              · rw [if_neg h2] at h
                simp at h
        · rw [if_neg h1] at h
          simp at h
    · intro cs acc es r h
      simp only [parseElems] at h
      cases hpv : parseValue fuel cs with
      | none => rw [hpv] at h; simp at h
      | some pv =>
        obtain ⟨v, r1⟩ := pv
        rw [hpv] at h
        simp only [] at h
        cases hd : r1.dropWhile isJsonWs with
        | nil => rw [hd] at h; simp at h
        | cons d r2 =>
          rw [hd] at h
          simp only [] at h
          by_cases h1 : d = ','
          · rw [if_pos h1] at h
            obtain ⟨pV, hV, gV⟩ := ihV cs v r1 hpv
            refine seg_trans cs r1 r pV hV gV ?_
            refine seg_dropWhile r1 r ?_
            rw [hd]
            refine seg_cons d (by rw [h1]; decide) r2 r ?_
            refine seg_dropWhile r2 r ?_
            exact ihE (r2.dropWhile isJsonWs) _ es r h
          · rw [if_neg h1] at h
            by_cases h2 : d = ']'
            · rw [if_pos h2] at h
              simp only [Option.some.injEq, Prod.mk.injEq] at h
              obtain ⟨-, hr⟩ := h
              subst hr
              obtain ⟨pV, hV, gV⟩ := ihV cs v r1 hpv
              refine seg_trans cs r1 r2 pV hV gV ?_
              refine seg_dropWhile r1 r2 ?_
              rw [hd]
              exact seg_cons d (by rw [h2]; decide) r2 r2 (seg_refl r2)
            · rw [if_neg h2] at h
              simp at h

/-- text accepted by the decoder satisfies the adjacency invariant after
whitespace stripping: its backticks sit strictly inside string literals -/
theorem json_accepted_goodSeg (cs : List Char) (v : JsonValue)
    (h : json_loads_list cs = some v) : goodSeg (stripJsonWs cs) := by
  simp only [json_loads_list] at h
  cases hp : parseValue ((stripJsonWs cs).length + 1) (stripJsonWs cs) with
  | none => rw [hp] at h; simp at h
  | some pr =>
    obtain ⟨v', rest⟩ := pr
    rw [hp] at h
    cases rest with
    | nil =>
      obtain ⟨pre, hpre, hg⟩ := (parse_split_all _).1 _ v' [] hp
      rw [List.append_nil] at hpre
      rw [hpre]
      exact hg
    | cons x xs => simp at h

/-! The claims. -/

/-- C1 (counterexample): the claim asserts that, for every input, the
Response Parser returns the JSON-parse of the candidate delimited by the
first left brace and the last right brace.  On the input below that
candidate parses to an object, yet extract_json_from_response of
src/parse.py — which performs no brace scan at all — returns the Python
None. -/
theorem c1_counterexample :
    extract_json_from_response "x \x7b\"a\": 1\x7d y" = none ∧
    json_loads_list (response_parser_spec_candidate ("x \x7b\"a\": 1\x7d y".data)) =
      some (JsonValue.obj [("a", JsonValue.num 1 [] none)]) :=
  ⟨rfl, rfl⟩

/-- C1 (amended): the brace-scanning candidate selection lives in the
extract_thinker extractor, and operates on the raw response text.  For
every input, the value returned by that extractor's response handling
equals the value obtained by following the wording of the claim: locate
the first left brace and the last right brace, JSON-parse the inclusive
substring between them when the first position precedes the last, and
JSON-parse the whole trimmed text when no such pair exists. -/
theorem c1_theorem (s : String) :
    extract_with_prompt_json s = extract_with_prompt_spec s := by
  unfold extract_with_prompt_json extract_with_prompt_spec
  rw [et_candidate_eq_spec]

/-- C2 (counterexample): the claim asserts that a failed parse yields a
value carrying the original text verbatim.  extract_json_from_response of
src/parse.py instead returns the Python None, a value carrying nothing. -/
theorem c2_counterexample : extract_json_from_response "hello" = none :=
  rfl

/-- C2 (amended): the text-preserving failure value is produced by the
extract_thinker parser, not by parse.py.  Whenever the candidate selected
by extract_with_prompt fails to JSON-parse, the returned value is the
error object whose raw_response field holds the original input text
verbatim — it is a returned value, not a thrown exception. -/
theorem c2_theorem (s : String)
    (h : json_loads_list (et_candidate s.data) = none) :
    extract_with_prompt_json s = errorDict s := by
  unfold extract_with_prompt_json
  rw [h]

theorem c2_witness :
    json_loads_list (et_candidate ("hello".data)) = none ∧
    extract_with_prompt_json "hello" = errorDict "hello" :=
  ⟨rfl, c2_theorem "hello" rfl⟩

/-- C3 (counterexample): the claim asserts the timeout outcome is
distinguishable from the service-error outcome.  With the same location
and budget, a remote object that never appears and a poll that raises a
non-NoSuchKey client error produce the very same return value, None. -/
theorem c3_counterexample :
    (wait_for_async_result (fun _ => S3Read.noSuchKey) "s3://b/k" 7).result = none ∧
    (wait_for_async_result (fun _ => S3Read.err) "s3://b/k" 7).result = none :=
  ⟨rfl, rfl⟩

/-- C3 (amended): when the remote object never appears within the budget,
wait_for_async_result returns None — the same None produced on a service
error, so the two outcomes are not distinguishable by the caller; and on
any read error other than NoSuchKey at attempt k it returns None at once,
after exactly k + 1 polls and k sleeps, with no further poll attempts. -/
theorem c3_theorem :
    (∀ read T, (∀ n, read n = S3Read.noSuchKey) →
      (wait_core read 5 T).result = none) ∧
    (∀ read T k, (∀ j, j < k → read j = S3Read.noSuchKey) →
      read k = S3Read.err → k * 5 < T →
      wait_core read 5 T = ⟨none, k + 1, k, k * 5⟩) := by
  constructor
  · intro read T h
    have hcond : T ≤ 0 + (T + 1) * 5 := by omega
    exact (waitLoop_never read 5 T h (T + 1) 0 0 0 (by simp) hcond).1
  · intro read T k h1 h2 h3
    have := waitLoop_err read 5 T k (T + 1) 0 0 0
      (by simpa using h1) (by simpa using h2) (by omega) (by omega)
    simpa [wait_core] using this

theorem c3_witness :
    (wait_core (fun _ => S3Read.noSuchKey) 5 7).result = none ∧
    wait_core (fun n => if n = 0 then S3Read.err else S3Read.noSuchKey) 5 7 =
      ⟨none, 1, 0, 0⟩ :=
  ⟨c3_theorem.1 _ 7 (fun _ => rfl),
   c3_theorem.2 _ 7 0 (fun j hj => absurd hj (Nat.not_lt_zero j)) rfl (by omega)⟩

/-- C4: when the asynchronous submission fails (invoke_async_endpoint
returns None), infer with the asynchronous preference performs exactly one
synchronous invocation — one async call, one sync call, no wait — and
returns the synchronous result. -/
theorem c4_theorem (a : AsyncResp) (sr : SvcResp) (read : Nat → S3Read)
    (h : invoke_async_endpoint a = none) :
    infer a sr read true = ⟨invoke_sync_endpoint sr, 1, 1, 0⟩ := by
  simp [infer, h]

theorem c4_witness :
    invoke_async_endpoint AsyncResp.exc = none ∧
    infer AsyncResp.exc SvcResp.exc (fun _ => S3Read.noSuchKey) true =
      ⟨none, 1, 1, 0⟩ :=
  ⟨rfl, c4_theorem AsyncResp.exc SvcResp.exc (fun _ => S3Read.noSuchKey) rfl⟩

/-- C5 (counterexample): the claim asserts every body shape other than the
two accepted envelopes is reported as a service error.  A one-element list
whose object lacks the generated_text key is returned as the empty string
— extracted text, not a failure. -/
theorem c5_counterexample :
    invoke_sync_endpoint (SvcResp.body "[\x7b\x7d]") = some (JsonValue.str "") :=
  rfl

/-- C5 (amended): invoke_sync_endpoint returns extracted text exactly when
the decoded body is a sequence with at least one element whose first
element is an object, or a single object — yielding that object's
generated_text entry, or the empty string when the key is absent; every
other decoded shape yields None.  On the scenario envelope it returns the
text hello. -/
theorem c5_theorem :
    invoke_sync_endpoint (SvcResp.body "[\x7b\"generated_text\": \"hello\"\x7d]") =
      some (JsonValue.str "hello") ∧
    ∀ v, (extract_generated_text v).isSome = true ↔
      ((∃ m rest, v = JsonValue.arr (JsonValue.obj m :: rest)) ∨
        ∃ m, v = JsonValue.obj m) := by
  refine ⟨rfl, ?_⟩
  intro v
  match v with
  | JsonValue.null => simp [extract_generated_text]
  | JsonValue.bool b => simp [extract_generated_text]
  | JsonValue.num i f e => simp [extract_generated_text]
  | JsonValue.str t => simp [extract_generated_text]
  | JsonValue.nan => simp [extract_generated_text]
  | JsonValue.inf b => simp [extract_generated_text]
  | JsonValue.obj m => simp [extract_generated_text]
  | JsonValue.arr [] => simp [extract_generated_text]
  | JsonValue.arr (h :: t) =>
    cases h <;> simp [extract_generated_text]

theorem c5_witness : (extract_generated_text (JsonValue.obj [])).isSome = true :=
  (c5_theorem.2 (JsonValue.obj [])).mpr (Or.inr ⟨[], rfl⟩)

/-- C6: with poll interval p, 0 < p < T, and a remote object that never
appears, the polling loop returns None with elapsed time at least T after
at most the ceiling of T / p poll attempts (well within the claimed
tolerance of one attempt); the source instantiates p with its fixed
5-second sleep. -/
theorem c6_theorem (read : Nat → S3Read) (T p : Nat) (hp : 0 < p)
    (hpT : p < T) (h : ∀ n, read n = S3Read.noSuchKey) :
    (wait_core read p T).result = none ∧
    T ≤ (wait_core read p T).elapsed ∧
    (wait_core read p T).polls ≤ (T + p - 1) / p := by
  unfold wait_core
  have hcond : T ≤ 0 + (T + 1) * p := by
    have h1 : (T + 1) * 1 ≤ (T + 1) * p := Nat.mul_le_mul_left (T + 1) hp
    omega
  obtain ⟨r1, r2, r3⟩ :=
    waitLoop_never read p T h (T + 1) 0 0 0 (by simp) hcond
  refine ⟨r1, r2, ?_⟩
  rcases r3 with hl | hr
  · rw [hl]
    exact Nat.zero_le _
  · have hq : (waitLoop read p T (T + 1) 0 0 0).polls - 1 ≤ (T - 1) / p := by
      rw [Nat.le_div_iff_mul_le hp]
      omega
    have hd : (T - 1) / p + 1 = (T - 1 + p) / p := (Nat.add_div_right _ hp).symm
    have he : T - 1 + p = T + p - 1 := by omega
    rw [he] at hd
    omega

theorem c6_witness :
    (wait_core (fun _ => S3Read.noSuchKey) 5 12).result = none ∧
    12 ≤ (wait_core (fun _ => S3Read.noSuchKey) 5 12).elapsed ∧
    (wait_core (fun _ => S3Read.noSuchKey) 5 12).polls ≤ (12 + 5 - 1) / 5 :=
  c6_theorem (fun _ => S3Read.noSuchKey) 12 5 (by omega) (by omega) (fun _ => rfl)

/-- C7: every JSON text that decodes to an object is recovered exactly by
extract_json_from_response when wrapped in json-tagged fence markers: the
opening fence and the trailing fence are stripped and the decoded object is
returned unchanged.  This covers objects whose string literals contain
backticks: decoder-accepted text keeps every backtick strictly inside a
newline-free string literal, so no line start and no line end of the fenced
body carries one and both fence patterns miss the object's interior. -/
theorem c7_theorem (J : String) (m : List (String × JsonValue))
    (hm : json_loads J = some (JsonValue.obj m)) :
    extract_json_from_response ("```json\n" ++ J ++ "\n```")
      = some (JsonValue.obj m) := by
  obtain ⟨t0, hhead⟩ := json_loads_list_obj_head J.data m hm
  obtain ⟨t2, hpre, hws2⟩ := dropEndWhile_decomp isJsonWs (J.data.dropWhile isJsonWs)
  have hstrip : stripJsonWs J.data
      = dropEndWhile isJsonWs (J.data.dropWhile isJsonWs) := rfl
  rw [hstrip] at hhead
  obtain ⟨t1, hJ1⟩ : ∃ t1, J.data.dropWhile isJsonWs = lbrace :: t1 := by
    refine ⟨t0 ++ t2, ?_⟩
    rw [hpre, hhead]
    simp
  have hpy : J.data.dropWhile isPyWs = J.data.dropWhile isJsonWs :=
    dropWhile_py_eq_json J.data ⟨t1, hJ1⟩
  -- the adjacency invariant of the fenced body: the decoded text satisfies
  -- it, and the trailing whitespace plus the pre-fence newline are
  -- backtick-free
  have hgS : goodSeg (stripJsonWs J.data) := json_accepted_goodSeg J.data _ hm
  have hgT : goodSeg (t2 ++ [nlChar]) := by
    apply goodSeg_of_not_mem_bt
    intro hx
    rcases List.mem_append.mp hx with hx | hx
    · exact absurd (hws2 _ hx) (by decide)
    · simp only [List.mem_singleton] at hx
      exact absurd hx (by decide)
  have hl : J.data.dropWhile isJsonWs ++ [nlChar]
      = stripJsonWs J.data ++ (t2 ++ [nlChar]) := by
    rw [hstrip, ← List.append_assoc, ← hpre]
  have hg : goodSeg (J.data.dropWhile isJsonWs ++ [nlChar]) := by
    rw [hl]
    exact goodSeg_append _ _ hgS hgT
  obtain ⟨hg1, hg2, hg3⟩ := hg
  have hdata : ("```json\n" ++ J ++ "\n```").data
      = btChar :: btChar :: btChar :: 'j' :: 's' :: 'o' :: 'n' :: nlChar ::
        (J.data ++ (nlChar :: btChar :: btChar :: btChar :: [])) := by
    rw [String.data_append, String.data_append]
    rfl
  -- the first substitution: the opening fence, the text, the closing fence
  have hrest : afterTicksRest (btChar :: btChar :: 'j' :: 's' :: 'o' :: 'n' ::
        nlChar :: (J.data ++ (nlChar :: btChar :: btChar :: btChar :: [])))
      = J.data.dropWhile isJsonWs ++ (nlChar :: btChar :: btChar :: btChar :: []) := by
    have h0 : afterTicksRest (btChar :: btChar :: 'j' :: 's' :: 'o' :: 'n' ::
          nlChar :: (J.data ++ (nlChar :: btChar :: btChar :: btChar :: [])))
        = (J.data ++ (nlChar :: btChar :: btChar :: btChar :: [])).dropWhile isPyWs := rfl
    rw [h0, dropWhile_append_ne_nil _ (by rw [hpy, hJ1]; simp), hpy]
  have hsub1 : sub1 (btChar :: btChar :: btChar :: 'j' :: 's' :: 'o' :: 'n' ::
        nlChar :: (J.data ++ (nlChar :: btChar :: btChar :: btChar :: []))) true
      = J.data.dropWhile isJsonWs ++ [nlChar] := by
    unfold sub1
    have hlen : (btChar :: btChar :: btChar :: 'j' :: 's' :: 'o' :: 'n' ::
          nlChar :: (J.data ++ (nlChar :: btChar :: btChar :: btChar :: []))).length
        = (J.data.length + 11) + 1 := by
      simp [List.length_append]
    rw [hlen,
        sub1F_fence _ _ (rfl : isTicks3 (btChar :: btChar :: btChar :: 'j' :: 's' ::
          'o' :: 'n' :: nlChar :: (J.data ++ (nlChar :: btChar :: btChar :: btChar :: []))) = true),
        hrest,
        show J.data.dropWhile isJsonWs ++ (nlChar :: btChar :: btChar :: btChar :: [])
          = (J.data.dropWhile isJsonWs ++ [nlChar]) ++ (btChar :: btChar :: btChar :: []) from by simp,
        sub1F_pass _ hg1 _ _ _ (fun _ => hg2)]
    have hflag : flagAfter (J.data.dropWhile isJsonWs ++ [nlChar])
        (afterTicksFlag (btChar :: btChar :: 'j' :: 's' :: 'o' :: 'n' :: nlChar ::
          (J.data ++ (nlChar :: btChar :: btChar :: btChar :: [])))) = true := by
      rw [flagAfter_append]
      rfl
    rw [hflag]
    have hJle := length_dropWhile_le isJsonWs J.data
    have hF : (J.data.length + 11) - (J.data.dropWhile isJsonWs ++ [nlChar]).length
        = (((J.data.length + 11) - (J.data.dropWhile isJsonWs ++ [nlChar]).length - 1) + 1) := by
      simp only [List.length_append, List.length_cons, List.length_nil]
      omega
    rw [hF, sub1F_fence _ _ (rfl : isTicks3 (btChar :: btChar :: btChar :: []) = true)]
    have hnil : afterTicksRest (btChar :: btChar :: []) = [] := rfl
    rw [hnil]
    simp [sub1F]
  have hsub2 : sub2 (J.data.dropWhile isJsonWs ++ [nlChar])
      = J.data.dropWhile isJsonWs ++ [nlChar] :=
    sub2F_pass _ hg1 hg3 _
  have hdq : pyStripChar dqChar (J.data.dropWhile isJsonWs ++ [nlChar])
      = J.data.dropWhile isJsonWs ++ [nlChar] := by
    unfold pyStripChar
    rw [hJ1, List.cons_append, List.dropWhile_cons_of_neg (by decide),
        ← List.cons_append, ← hJ1]
    exact dropEndWhile_append_neg _ _ _ (by decide)
  have hsq : pyStripChar sqChar (J.data.dropWhile isJsonWs ++ [nlChar])
      = J.data.dropWhile isJsonWs ++ [nlChar] := by
    unfold pyStripChar
    rw [hJ1, List.cons_append, List.dropWhile_cons_of_neg (by decide),
        ← List.cons_append, ← hJ1]
    exact dropEndWhile_append_neg _ _ _ (by decide)
  have hjson : json_loads_list (J.data.dropWhile isJsonWs ++ [nlChar])
      = json_loads_list J.data := by
    apply json_loads_list_congr
    show dropEndWhile isJsonWs ((J.data.dropWhile isJsonWs ++ [nlChar]).dropWhile isJsonWs)
      = stripJsonWs J.data
    rw [hJ1, List.cons_append, List.dropWhile_cons_of_neg (by decide),
        ← List.cons_append, ← hJ1,
        dropEndWhile_append_pos _ _ _ (by decide)]
    rfl
  unfold extract_json_from_response ejfr_prep
  rw [hdata, hsub1, hsub2, hdq, hsq, hjson]
  exact hm

theorem c7_witness :
    extract_json_from_response ("```json\n" ++
        "\x7b\"cmd\": \"run `ls -la` now\"\x7d" ++ "\n```")
      = some (JsonValue.obj [("cmd", JsonValue.str "run `ls -la` now")]) :=
  c7_theorem "\x7b\"cmd\": \"run `ls -la` now\"\x7d"
    [("cmd", JsonValue.str "run `ls -la` now")] rfl

/-- C8 (counterexample): the claim asserts the parser performs no I/O.  On
an input that fails to parse, extract_json_from_response executes its
except branch, which prints one diagnostic line to standard output. -/
theorem c8_counterexample : (extract_json_from_response_io "hello").2 ≠ 0 := by
  decide

/-- C8 (amended): the parser is deterministic and total — it always
returns a value and never throws — and its only side effect is a single
diagnostic print on the parse-failure path: the returned value agrees with
the pure model, zero lines are printed exactly when parsing succeeded, and
one line is printed exactly when it failed.  (Its input is never mutated:
the model is a pure function of the text.) -/
theorem c8_theorem (s : String) :
    (extract_json_from_response_io s).1 = extract_json_from_response s ∧
    ((extract_json_from_response_io s).2 = 0 ↔
      (extract_json_from_response s).isSome = true) ∧
    ((extract_json_from_response_io s).2 = 1 ↔
      extract_json_from_response s = none) := by
  unfold extract_json_from_response_io extract_json_from_response
  cases h : json_loads_list (ejfr_prep s) <;> simp

theorem c8_witness : (extract_json_from_response_io "hello").2 = 1 := by
  have h := c8_theorem "hello"
  exact h.2.2.mpr rfl

/-- C9: no failure of the remote service escapes as an exception: a raised
client call, an acknowledgement without an output location, an undecodable
or unusably-shaped response body on the synchronous path, a non-NoSuchKey
read error while polling, a successful poll read whose body fails to decode
or decodes to an unusable shape, a malformed output location, and a failure
of either branch of infer — a failing synchronous fallback after the
asynchronous submission yields no usable location, or an empty-handed wait
on the returned location — all surface as a returned None from the
respective public operation. -/
theorem c9_theorem :
    invoke_async_endpoint AsyncResp.exc = none ∧
    invoke_async_endpoint (AsyncResp.ok none) = none ∧
    invoke_sync_endpoint SvcResp.exc = none ∧
    (∀ s, json_loads s = none → invoke_sync_endpoint (SvcResp.body s) = none) ∧
    (∀ s v, json_loads s = some v → extract_generated_text v = none →
      invoke_sync_endpoint (SvcResp.body s) = none) ∧
    (∀ read T k, (∀ j, j < k → read j = S3Read.noSuchKey) →
      read k = S3Read.err → k * 5 < T → (wait_core read 5 T).result = none) ∧
    (∀ read T k body, (∀ j, j < k → read j = S3Read.noSuchKey) →
      read k = S3Read.ok body → json_loads body = none → k * 5 < T →
      (wait_core read 5 T).result = none) ∧
    (∀ read T k body v, (∀ j, j < k → read j = S3Read.noSuchKey) →
      read k = S3Read.ok body → json_loads body = some v →
      extract_generated_text v = none → k * 5 < T →
      (wait_core read 5 T).result = none) ∧
    (∀ read loc T, startsWithS3 loc.data = false →
      (wait_for_async_result read loc T).result = none) ∧
    (∀ a sr read b, (invoke_async_endpoint a = none ∨
        invoke_async_endpoint a = some "") →
      invoke_sync_endpoint sr = none → (infer a sr read b).result = none) ∧
    (∀ a sr read loc, invoke_async_endpoint a = some loc → ¬ loc = "" →
      (wait_for_async_result read loc 300).result = none →
      (infer a sr read true).result = none) := by
  refine ⟨rfl, rfl, rfl, ?_, ?_, ?_, ?_, ?_, ?_, ?_, ?_⟩
  · intro s h
    simp [invoke_sync_endpoint, h]
  · intro s v h1 h2
    simp [invoke_sync_endpoint, h1, h2]
  · intro read T k h1 h2 h3
    have := waitLoop_err read 5 T k (T + 1) 0 0 0
      (by simpa using h1) (by simpa using h2) (by omega) (by omega)
    simp [wait_core, this]
  · intro read T k body h1 h2 hdec h3
    have := waitLoop_ok read 5 T k (T + 1) 0 0 0 body
      (by simpa using h1) (by simpa using h2) (by omega) (by omega)
    simp [wait_core, this, hdec]
  · intro read T k body v h1 h2 hdec hext h3
    have := waitLoop_ok read 5 T k (T + 1) 0 0 0 body
      (by simpa using h1) (by simpa using h2) (by omega) (by omega)
    simp [wait_core, this, hdec, hext]
  · intro read loc T h
    simp [wait_for_async_result, h]
  · intro a sr read b hA hS
    cases b
    · simp [infer, hS]
    · rcases hA with hA | hA <;> simp [infer, hA, hS]
  · intro a sr read loc hA hne hW
    simp [infer, hA, hne, hW]

theorem c9_witness :
    invoke_sync_endpoint (SvcResp.body "notjson") = none ∧
    invoke_sync_endpoint (SvcResp.body "[]") = none ∧
    (wait_core (fun _ => S3Read.err) 5 7).result = none ∧
    (wait_core (fun _ => S3Read.ok "notjson") 5 7).result = none ∧
    (wait_core (fun _ => S3Read.ok "[]") 5 7).result = none ∧
    (wait_for_async_result (fun _ => S3Read.noSuchKey) "ftp://x" 9).result
      = none ∧
    (infer AsyncResp.exc SvcResp.exc (fun _ => S3Read.err) true).result
      = none ∧
    (infer (AsyncResp.ok (some "s3://b/k")) SvcResp.exc (fun _ => S3Read.err)
        true).result = none :=
  ⟨c9_theorem.2.2.2.1 "notjson" rfl,
   c9_theorem.2.2.2.2.1 "[]" (JsonValue.arr []) rfl rfl,
   c9_theorem.2.2.2.2.2.1 (fun _ => S3Read.err) 7 0
     (fun j hj => absurd hj (Nat.not_lt_zero j)) rfl (by omega),
   c9_theorem.2.2.2.2.2.2.1 (fun _ => S3Read.ok "notjson") 7 0 "notjson"
     (fun j hj => absurd hj (Nat.not_lt_zero j)) rfl rfl (by omega),
   c9_theorem.2.2.2.2.2.2.2.1 (fun _ => S3Read.ok "[]") 7 0 "[]"
     (JsonValue.arr [])
     (fun j hj => absurd hj (Nat.not_lt_zero j)) rfl rfl rfl (by omega),
   c9_theorem.2.2.2.2.2.2.2.2.1 (fun _ => S3Read.noSuchKey) "ftp://x" 9 rfl,
   c9_theorem.2.2.2.2.2.2.2.2.2.1 AsyncResp.exc SvcResp.exc
     (fun _ => S3Read.err) true (Or.inl rfl) rfl,
   c9_theorem.2.2.2.2.2.2.2.2.2.2 (AsyncResp.ok (some "s3://b/k")) SvcResp.exc
     (fun _ => S3Read.err) "s3://b/k" rfl (by decide) rfl⟩

/-- C10: an output location that does not start with the s3 scheme makes
wait_for_async_result fail immediately: the result is None and zero polls,
zero sleeps and zero elapsed time are recorded. -/
theorem c10_theorem (read : Nat → S3Read) (loc : String) (T : Nat)
    (h : startsWithS3 loc.data = false) :
    wait_for_async_result read loc T = ⟨none, 0, 0, 0⟩ := by
  simp [wait_for_async_result, h]

theorem c10_witness :
    startsWithS3 ("https://bucket/key".data) = false ∧
    wait_for_async_result (fun _ => S3Read.noSuchKey) "https://bucket/key" 300 =
      ⟨none, 0, 0, 0⟩ :=
  ⟨rfl, c10_theorem (fun _ => S3Read.noSuchKey) "https://bucket/key" 300 rfl⟩

end S2P
